import Mathlib

/-!
Verification of the dev-dashboard synchronization core: the commit/tag
correlation heuristic, the kustomization manifest scanner, path-derived
deployment coordinates, and the record-store reconciliation routines
(microservice upsert-preserving-identity, deployment upsert, action batch
upsert).  Strings are modelled as lists of characters; the Go string
functions used by the code (`strings.Contains`, `strings.Split`,
`strings.TrimSpace`, `strings.ToLower`, ...) are reproduced below.  On the
ASCII content these claims range over, the byte-level Go view and the
character-list view agree.
-/

namespace DevDashboard

/-- Strings as character lists. -/
abbrev Str := List Char

/-- ASCII whitespace, as recognised by Go `unicode.IsSpace`. -/
def isSpaceChar (c : Char) : Bool :=
  c = ' ' || c = '\t' || c = '\n' || c = '\r' || c = '\x0b' || c = '\x0c'

/-- Drop the longest leading run of characters satisfying `p`. -/
def dropLeadWhile (p : Char → Bool) : Str → Str
  | [] => []
  | c :: cs => if p c then dropLeadWhile p cs else c :: cs

/-- Drop the longest trailing run of characters satisfying `p`. -/
def dropTrailWhile (p : Char → Bool) (s : Str) : Str :=
  (dropLeadWhile p s.reverse).reverse

/-- Go `strings.TrimSpace`. -/
def trimSpace (s : Str) : Str :=
  dropTrailWhile isSpaceChar (dropLeadWhile isSpaceChar s)

/-- Go `strings.HasPrefix s pre` (second argument is the leading part). -/
def strStartsWith : Str → Str → Bool
  | _, [] => true
  | [], _ :: _ => false
  | c :: cs, p :: ps => c = p && strStartsWith cs ps

/-- Go `strings.Contains s n`. -/
def strContainsSub (s n : Str) : Bool :=
  match s with
  | [] => n.isEmpty
  | _ :: t => strStartsWith s n || strContainsSub t n

/-- Go `strings.ToLower` restricted to ASCII. -/
def lowerStr (s : Str) : Str := s.map Char.toLower

/-- Go `strings.Split s sep` for a one-character separator. -/
def splitOnChar (sep : Char) : Str → List Str
  | [] => [[]]
  | c :: cs =>
    if c = sep then [] :: splitOnChar sep cs
    else
      match splitOnChar sep cs with
      | [] => [[c]]
      | h :: t => (c :: h) :: t

/-- The characters stripped by `strings.Trim(tag, "\x22'")` in the scanner. -/
def isQuoteChar (c : Char) : Bool := c = '"' || c = '\''

/-- Go `strings.Trim` with a character-class cutset. -/
def trimChars (p : Char → Bool) (s : Str) : Str :=
  dropTrailWhile p (dropLeadWhile p s)

/-- Go `strings.TrimPrefix`. -/
def trimLeadStr (s pre : Str) : Str :=
  if strStartsWith s pre then s.drop pre.length else s

/-- Hexadecimal character class of the Go regex `[a-fA-F0-9]`. -/
def isHexDigitChar (c : Char) : Bool :=
  (('a' ≤ c) && (c ≤ 'f')) || (('A' ≤ c) && (c ≤ 'F')) || (('0' ≤ c) && (c ≤ '9'))

/-- Go `isHexString`: the regex `[a-fA-F0-9]+` anchored at both ends. -/
def isHexString (s : Str) : Bool := !s.isEmpty && s.all isHexDigitChar

/-- Go `strings.EqualFold` restricted to ASCII. -/
def eqFold (a b : Str) : Bool := lowerStr a == lowerStr b

/-- The prefix of `s` up to (excluding) the first occurrence of `c`. -/
def takeUntilChar (c : Char) : Str → Str
  | [] => []
  | x :: xs => if x = c then [] else x :: takeUntilChar c xs

/-! ## Commit/tag correlation (`correlateTagWithCommit`, sync service)

The service/repository resolution at the top of the Go function (service
lookup, monorepo check, URL parsing) is orthogonal to the strategy order the
claims are about; the model starts from the commit listing for the service
path and the repository tag listing, exactly as the loop bodies do. -/

/-- One commit from the VCS commit-listing API.  `sha` and `message` are
optional because the Go code nil-checks `commit.SHA`, `commit.Commit` and
`commit.Commit.Message` and skips the commit if any is missing. -/
structure CommitInfo where
  sha : Option Str
  message : Option Str
deriving DecidableEq

/-- One VCS tag from the tag-listing API; the Go code nil-checks
`gitTag.Name`, `gitTag.Commit` and `gitTag.Commit.SHA`. -/
structure GitTagInfo where
  name : Option Str
  commitSha : Option Str
deriving DecidableEq

/-- The literal `release-` convention marker. -/
def releaseMarker : Str := ("release-").data

/-- The commit-message loop of `correlateTagWithCommit`: for each commit in
order, first the case-insensitive raw-tag substring check, then (when the tag
contains `release-`) the version-substring check against the lowercased
message. -/
def scanCommitsForTag (tag : Str) : List CommitInfo → Option Str
  | [] => none
  | c :: cs =>
    match c.sha, c.message with
    | some sha, some message =>
      if strContainsSub (lowerStr message) (lowerStr tag) then some sha
      else if strContainsSub tag releaseMarker &&
          strContainsSub (lowerStr message) (trimLeadStr tag releaseMarker) then some sha
      else scanCommitsForTag tag cs
    | _, _ => scanCommitsForTag tag cs

/-- The VCS-tag loop of `correlateTagWithCommit`: first tag whose name is a
case-insensitive exact match. -/
def scanGitTagsForTag (tag : Str) : List GitTagInfo → Option Str
  | [] => none
  | g :: gs =>
    match g.name, g.commitSha with
    | some n, some sha =>
      if eqFold n tag then some sha else scanGitTagsForTag tag gs
    | _, _ => scanGitTagsForTag tag gs

/-- `correlateTagWithCommit`, given the commit listing (up to 50 recent
commits touching the service path) and the repository tag listing: the commit
scan runs first; the tag scan runs only when the commit scan found nothing;
empty string means no correlation. -/
def correlateTagWithCommit (commits : List CommitInfo) (gitTags : List GitTagInfo)
    (tag : Str) : Str :=
  match scanCommitsForTag tag commits with
  | some sha => sha
  | none =>
    match scanGitTagsForTag tag gitTags with
    | some sha => sha
    | none => []

/-- The commit-SHA resolution step of `syncKubernetesRepo` (lines 202-214):
a 40-character hex tag is used directly; otherwise the correlation routine
runs and the kubernetes repository's own file commit is the fallback for an
empty correlation result.  The correlation routine is passed as a function so
that its (non-)invocation is visible in the theorems. -/
def resolveDeploymentCommitSHA (correlate : Str → Str) (tag fallbackSha : Str) : Str :=
  if tag.length = 40 && isHexString tag then tag
  else
    let c := correlate tag
    if c = [] then fallbackSha else c

/-- Predicate under which the commit loop accepts a commit: the disjunction
of the raw-tag check and the `release-` version check, exactly as both are
tried on each commit of the single pass. -/
def commitMatchesTag (tag : Str) (c : CommitInfo) : Bool :=
  match c.sha, c.message with
  | some _, some message =>
    strContainsSub (lowerStr message) (lowerStr tag) ||
      (strContainsSub tag releaseMarker &&
        strContainsSub (lowerStr message) (trimLeadStr tag releaseMarker))
  | _, _ => false

/-- Predicate under which the VCS-tag loop accepts a tag entry. -/
def gitTagMatchesTag (tag : Str) (g : GitTagInfo) : Bool :=
  match g.name, g.commitSha with
  | some n, some _ => eqFold n tag
  | _, _ => false

/-- Specification-side restatement of the amended correlation order: one
pass over the commits where each commit is tested against the raw tag and the
`release-` version together, first match wins; the VCS tag lookup runs only
after that single pass fails. -/
def correlateSpecInterleaved (commits : List CommitInfo) (gitTags : List GitTagInfo)
    (tag : Str) : Str :=
  match commits.find? (commitMatchesTag tag) with
  | some c => c.sha.getD []
  | none =>
    match gitTags.find? (gitTagMatchesTag tag) with
    | some g => g.commitSha.getD []
    | none => []

/-! ## Manifest scanner (`extractImageTagFromKustomization`, github client)

The Go loop keeps two flags (`inImagesSection`, `inServiceImage`) while
walking the lines of the file.  Each named line predicate below is the exact
condition tested by the corresponding `if` in the Go code; `extractScan` wires
them together with the same branch order and `continue` structure. -/

/-- The `images:` header line (compared against the trimmed line). -/
def imagesHeader : Str := ("images:").data

/-- The `name:` key substring. -/
def nameKey : Str := ("name:").data

/-- The `newName:` key substring. -/
def newNameKey : Str := ("newName:").data

/-- The `newTag:` key substring. -/
def newTagKey : Str := ("newTag:").data

/-- A single space, for the `strings.HasPrefix(originalLine, " ")` check. -/
def singleSpace : Str := (" ").data

/-- A dash, for the `strings.HasPrefix(line, "-")` checks. -/
def dashStr : Str := ("-").data

/-- The YAML document marker `---`. -/
def tripleDash : Str := ("---").data

/-- `line == "images:"` after trimming. -/
def lineIsImages (ol : Str) : Bool := trimSpace ol == imagesHeader

/-- The section-exit test: non-empty trimmed line, original line not starting
with a space, trimmed line not starting with `-` and not `---`. -/
def lineExits (ol : Str) : Bool :=
  let l := trimSpace ol
  !l.isEmpty && !strStartsWith ol singleSpace && !strStartsWith l dashStr &&
    l != tripleDash

/-- `strings.Contains(line, "name:") && strings.Contains(line, serviceName)`. -/
def lineNameMatch (svc ol : Str) : Bool :=
  let l := trimSpace ol
  strContainsSub l nameKey && strContainsSub l svc

/-- `strings.Contains(line, "newName:") && strings.Contains(line, serviceName)`. -/
def lineNewNameMatch (svc ol : Str) : Bool :=
  let l := trimSpace ol
  strContainsSub l newNameKey && strContainsSub l svc

/-- `strings.Contains(line, "newTag:")` on the trimmed line. -/
def lineHasNewTag (ol : Str) : Bool := strContainsSub (trimSpace ol) newTagKey

/-- `len(strings.Split(line, ":")) >= 2`. -/
def lineHasTwoParts (ol : Str) : Bool :=
  2 ≤ (splitOnChar ':' (trimSpace ol)).length

/-- `strings.HasPrefix(line, "-")` on the trimmed line. -/
def lineDash (ol : Str) : Bool := strStartsWith (trimSpace ol) dashStr

/-- The returned tag: `strings.Trim(strings.TrimSpace(parts[1]), "\x22'")`. -/
def lineTagValue (ol : Str) : Str :=
  match splitOnChar ':' (trimSpace ol) with
  | _ :: p1 :: _ => trimChars isQuoteChar (trimSpace p1)
  | _ => []

/-- The line loop of `extractImageTagFromKustomization` over the split lines,
carrying `inImagesSection` and `inServiceImage`.  Branch order and the
fall-through from the `newTag` check to the dash reset mirror the Go code. -/
def extractScan (svc : Str) : List Str → Bool → Bool → Str
  | [], _, _ => []
  | ol :: rest, inImg, inSvc =>
    if lineIsImages ol then extractScan svc rest true inSvc
    else if inImg then
      if lineExits ol then extractScan svc rest false false
      else if lineNameMatch svc ol then extractScan svc rest true true
      else if lineNewNameMatch svc ol then extractScan svc rest true true
      else if inSvc && lineHasNewTag ol && lineHasTwoParts ol then lineTagValue ol
      else if lineDash ol then extractScan svc rest true false
      else extractScan svc rest true inSvc
    else extractScan svc rest false inSvc

/-- `extractImageTagFromKustomization(content, serviceName)`. -/
def extractImageTagFromKustomization (content svc : Str) : Str :=
  extractScan svc (splitOnChar '\n' content) false false

/-! Canonical rendering of an `images:` block, used to quantify over overlay
contents in the scanner claims. -/

/-- One entry of an `images:` list: `name`, `newName` and `newTag` values. -/
structure ImageEntry where
  name : Str
  newName : Str
  newTag : Str
deriving DecidableEq

/-- The rendered `- name:` line of a list entry. -/
def nameLine (e : ImageEntry) : Str := ("- name: ").data ++ e.name

/-- The rendered `newName:` line of a list entry. -/
def newNameLine (e : ImageEntry) : Str := ("  newName: ").data ++ e.newName

/-- The rendered `newTag:` line of a list entry. -/
def newTagLine (e : ImageEntry) : Str := ("  newTag: ").data ++ e.newTag

/-- The three rendered lines of one list entry. -/
def entryLines (e : ImageEntry) : List Str :=
  [nameLine e, newNameLine e, newTagLine e]

/-- Join pieces with a one-character separator (inverse of `splitOnChar` for
separator-free pieces). -/
def joinWith (c : Char) : List Str → Str
  | [] => []
  | [l] => l
  | l :: ls => l ++ c :: joinWith c ls

/-- Join lines with newline separators. -/
def joinLines : List Str → Str := joinWith '\n'

/-- An overlay file body consisting of an `images:` header followed by the
rendered entries. -/
def renderImagesBlock (entries : List ImageEntry) : Str :=
  joinLines (imagesHeader :: entries.flatMap entryLines)

/-- The value the scanner actually produces from a rendered `newTag` field:
the field truncated at its first colon, whitespace-trimmed, and stripped of
surrounding quote characters. -/
def tagFieldValue (t : Str) : Str :=
  trimChars isQuoteChar (trimSpace (takeUntilChar ':' t))

/-- A field value fit for canonical rendering: non-empty, free of newlines,
and without trailing whitespace. -/
def goodField (f : Str) : Prop :=
  f ≠ [] ∧ '\n' ∉ f ∧ dropTrailWhile isSpaceChar f = f

/-- All three fields of an entry are fit for canonical rendering. -/
def goodEntry (e : ImageEntry) : Prop :=
  goodField e.name ∧ goodField e.newName ∧ goodField e.newTag

/-! ## Path-derived deployment coordinates and `ScanKustomizationFiles` -/

/-- The `services` path marker. -/
def servicesSeg : Str := ("services").data

/-- The `overlays` path marker. -/
def overlaysSeg : Str := ("overlays").data

/-- Derived coordinates of one manifest path. -/
structure Coordinates where
  serviceName : Str
  environment : Str
  region : Str
  namespc : Str
deriving DecidableEq

/-- The path check of `ScanKustomizationFiles`: split on `/`, require at
least 7 parts with `services` first and `overlays` third, and read the
coordinates from the fixed offsets (a failing path is reported as `none` and
skipped by the caller). -/
def deriveCoordinates (path : Str) : Option Coordinates :=
  if (splitOnChar '/' path).length < 7 then none
  else
    match splitOnChar '/' path with
    | p0 :: p1 :: p2 :: p3 :: p4 :: p5 :: _ =>
      if p0 = servicesSeg ∧ p2 = overlaysSeg then
        some ⟨p1, p3, p4, p5⟩
      else none
    | _ => none

/-- A canonical overlay manifest path
`services/<svc>/overlays/<env>/<region>/<ns>/kustomization.yaml`. -/
def mkOverlayPath (svc env region ns : Str) : Str :=
  joinWith '/'
    [servicesSeg, svc, overlaysSeg, env, region, ns, ("kustomization.yaml").data]

/-- One repository file visible to the scan: its path, its content (`none`
models a fetch/decode failure, which the Go code logs and skips), and the
per-file commit listing (each entry an optional SHA, `nil` pointers
included). -/
structure FileEntry where
  path : Str
  content : Option Str
  commits : List (Option Str)
deriving DecidableEq

/-- The per-file commit SHA of `ScanKustomizationFiles`: the head of the
one-element commit listing for the file when present with a non-nil SHA,
otherwise the empty string. -/
def fileCommitSHA (commits : List (Option Str)) : Str :=
  match commits with
  | some sha :: _ => sha
  | _ => []

/-- One deployment record produced by the scan. -/
structure KustomizationDeployment where
  serviceName : Str
  environment : Str
  region : Str
  namespc : Str
  tag : Str
  path : Str
  commitSHA : Str
deriving DecidableEq

/-- The per-file body of the `ScanKustomizationFiles` loop: derive
coordinates (skip on malformed path), fetch and decode the content (skip on
failure), extract the tag (skip when empty), and attach the file's own latest
commit SHA. -/
def scanKustomizationFile (f : FileEntry) : Option KustomizationDeployment :=
  match deriveCoordinates f.path with
  | none => none
  | some co =>
    match f.content with
    | none => none
    | some content =>
      let tag := extractImageTagFromKustomization content co.serviceName
      if tag = [] then none
      else some ⟨co.serviceName, co.environment, co.region, co.namespc, tag,
        f.path, fileCommitSHA f.commits⟩

/-- `ScanKustomizationFiles` over the discovered file list: every file is
processed independently and failures only skip that file. -/
def scanKustomizationFiles (files : List FileEntry) : List KustomizationDeployment :=
  files.filterMap scanKustomizationFile

/-! ## The deployment step of `syncKubernetesRepo` -/

/-- A microservice row as seen by the deployment-matching loop. -/
structure ServiceRec where
  id : Int
  name : Str
deriving DecidableEq

/-- The service-matching loop: first service related to the manifest's
service name by case-insensitive substring containment in either direction;
`serviceID` stays `0` when nothing matches. -/
def matchServiceID (services : List ServiceRec) (serviceName : Str) : Int :=
  match services.find? (fun s =>
      strContainsSub (lowerStr s.name) (lowerStr serviceName) ||
        strContainsSub (lowerStr serviceName) (lowerStr s.name)) with
  | some s => s.id
  | none => 0

/-- A deployment row as assembled by `syncKubernetesRepo` before the upsert. -/
structure DeploymentData where
  serviceID : Int
  kubernetesRepoID : Int
  commitSHA : Str
  environment : Str
  region : Str
  namespc : Str
  tag : Str
  path : Str
deriving DecidableEq

/-- The per-manifest body of the `syncKubernetesRepo` deployment loop: match
a service (skip when `serviceID` is 0), resolve the commit SHA (direct for a
40-hex tag, otherwise correlation with the file commit as fallback), and
build the row handed to `deploymentModel.Upsert`.  `some` means the upsert is
performed; correlation output never turns the result into `none`. -/
def processKustomizationDeployment (services : List ServiceRec)
    (correlate : Int → Str → Str) (repoID : Int)
    (kd : KustomizationDeployment) : Option DeploymentData :=
  let serviceID := matchServiceID services kd.serviceName
  if serviceID = 0 then none
  else
    let commitSHA := resolveDeploymentCommitSHA (correlate serviceID) kd.tag kd.commitSHA
    some ⟨serviceID, repoID, commitSHA, kd.environment, kd.region, kd.namespc,
      kd.tag, kd.path⟩

/-! ## Record store: deployments table and `DeploymentModel.Upsert`

The deployments table (after migration) has primary key `id` and
`UNIQUE(service_id, environment, region, namespace)`.  `Upsert` first queries
the row id for the key; on no row it inserts, otherwise it updates
`commit_sha`, `tag`, `path` and `updated_at` of that row. -/

/-- A row of the deployments table. -/
structure DeploymentRow where
  id : Nat
  serviceID : Int
  kubernetesRepoID : Int
  commitSHA : Str
  environment : Str
  region : Str
  namespc : Str
  tag : Str
  path : Str
  discoveredAt : Nat
  updatedAt : Nat
deriving DecidableEq

/-- The upsert key `(service_id, environment, region, namespace)` of a row. -/
def deploymentRowKey (r : DeploymentRow) : Int × Str × Str × Str :=
  (r.serviceID, r.environment, r.region, r.namespc)

/-- The upsert key of incoming deployment data. -/
def deploymentDataKey (d : DeploymentData) : Int × Str × Str × Str :=
  (d.serviceID, d.environment, d.region, d.namespc)

/-- The row written by `DeploymentModel.Create`. -/
def deploymentRowNew (d : DeploymentData) (nextId now : Nat) : DeploymentRow :=
  ⟨nextId, d.serviceID, d.kubernetesRepoID, d.commitSHA, d.environment,
    d.region, d.namespc, d.tag, d.path, now, now⟩

/-- The in-place update of `DeploymentModel.Update`: `SET commit_sha = ?,
tag = ?, path = ?, updated_at = ? WHERE id = ?`. -/
def deploymentRowUpdate (d : DeploymentData) (now : Nat) (r : DeploymentRow) :
    DeploymentRow :=
  { r with commitSHA := d.commitSHA, tag := d.tag, path := d.path,
           updatedAt := now }

/-- `DeploymentModel.Upsert` over the table: `SELECT id ... WHERE service_id
= ? AND environment = ? AND region = ? AND namespace = ?`, then either
`Create` (insert with a fresh autoincrement id) or `Update` (set commit_sha,
tag, path, updated_at by id).  Returns the new table and next autoincrement
id. -/
def deploymentUpsert (tbl : List DeploymentRow) (nextId : Nat) (now : Nat)
    (d : DeploymentData) : List DeploymentRow × Nat :=
  match tbl.find? (fun r => deploymentRowKey r = deploymentDataKey d) with
  | none => (tbl ++ [deploymentRowNew d nextId now], nextId + 1)
  | some e =>
    (tbl.map (fun r => if r.id = e.id then deploymentRowUpdate d now r else r),
      nextId)

/-! ## Record store: microservices table and `UpsertServicesPreserveID`

Rows carry the natural key `name + "|" + path`; the Go routine reads the
repository's rows into a map keyed that way, walks the incoming records
updating matched rows in place (by primary id) and inserting the rest, and
finally deletes the rows whose key was not in the input. -/

/-- A row of the microservices table (for one repository). -/
structure MsRow where
  id : Nat
  name : Str
  path : Str
  description : Str
  createdAt : Nat
  updatedAt : Nat
deriving DecidableEq

/-- An incoming discovered-service record. -/
structure MsInput where
  name : Str
  path : Str
  description : Str
deriving DecidableEq

/-- The reconciliation key `name + "|" + path`. -/
def msKey (name path : Str) : Str := name ++ '|' :: path

/-- Key of a table row. -/
def msRowKey (r : MsRow) : Str := msKey r.name r.path

/-- Key of an incoming record. -/
def msInputKey (i : MsInput) : Str := msKey i.name i.path

/-- Lookup in the pre-read `existingServices` map. -/
def findByKey (rows : List MsRow) (k : Str) : Option MsRow :=
  rows.find? (fun r => msRowKey r = k)

/-- The update applied to a matched row: `SET description = ?, updated_at =
? WHERE id = ?`. -/
def msUpdate (descr : Str) (now : Nat) (r : MsRow) : MsRow :=
  { r with description := descr, updatedAt := now }

/-- A freshly inserted row for an unmatched incoming record. -/
def msInsertRow (n : Nat) (i : MsInput) (now : Nat) : MsRow :=
  ⟨n, i.name, i.path, i.description, now, now⟩

/-- The first phase of `UpsertServicesPreserveID`: walk the incoming records,
looking each key up in the pre-read `existing` map; a hit updates the row
with that id in the live table, a miss inserts a fresh row. -/
def applyInputs (existing : List MsRow) (now : Nat) :
    List MsInput → List MsRow → Nat → List MsRow × Nat
  | [], tbl, n => (tbl, n)
  | i :: is, tbl, n =>
    match findByKey existing (msInputKey i) with
    | some e =>
      applyInputs existing now is
        (tbl.map (fun r => if r.id = e.id then msUpdate i.description now r else r)) n
    | none =>
      applyInputs existing now is (tbl ++ [msInsertRow n i now]) (n + 1)

/-- The deletion phase: every pre-existing row whose key was not processed is
deleted by id. -/
def deleteUnprocessed (existing : List MsRow) (inputKeys : List Str)
    (tbl : List MsRow) : List MsRow :=
  tbl.filter (fun r =>
    !(existing.any (fun e => e.id == r.id && !(inputKeys.contains (msRowKey e)))))

/-- `UpsertServicesPreserveID` for one repository: read the current rows,
update/insert against the pre-read map, then delete the no-longer-discovered
rows.  Returns the new table and next autoincrement id. -/
def upsertServicesPreserveID (tbl : List MsRow) (nextId : Nat) (now : Nat)
    (input : List MsInput) : List MsRow × Nat :=
  let st := applyInputs tbl now input tbl nextId
  (deleteUnprocessed tbl (input.map msInputKey) st.1, st.2)

/-! ## Record store: actions table and `ActionModel.UpsertActions`

The `actions` table of `schema.sql` has primary key `id` (autoincrement) and
no other uniqueness constraint — in particular none on `workflow_run_id`.
`UpsertActions` runs `INSERT OR REPLACE` without supplying `id`, so no
conflict can ever arise and each statement plainly inserts a fresh row. -/

/-- A row of the actions table (fields not bearing on the claim are kept as
written by the batch). -/
structure ActionRow where
  id : Nat
  repositoryID : Int
  type : Str
  status : Str
  workflowRunID : Int
  commitSHA : Str
  branch : Str
deriving DecidableEq

/-- An incoming action record of a batch. -/
structure ActionInput where
  repositoryID : Int
  type : Str
  status : Str
  workflowRunID : Int
  commitSHA : Str
  branch : Str
deriving DecidableEq

/-- One `INSERT OR REPLACE INTO actions ...` statement under the actual
schema: the only uniqueness constraint is the omitted autoincrement primary
key, so the statement never conflicts and always appends a new row. -/
def actionInsertOrReplace (tbl : List ActionRow) (nextId : Nat)
    (a : ActionInput) : List ActionRow × Nat :=
  (tbl ++ [⟨nextId, a.repositoryID, a.type, a.status, a.workflowRunID,
    a.commitSHA, a.branch⟩], nextId + 1)

/-- `UpsertActions`: the batch executed statement by statement in one
transaction. -/
def upsertActions (tbl : List ActionRow) (nextId : Nat)
    (batch : List ActionInput) : List ActionRow × Nat :=
  batch.foldl (fun st a => actionInsertOrReplace st.1 st.2 a) (tbl, nextId)

/-- The rows holding a given workflow-run-id. -/
def actionRowsForRun (tbl : List ActionRow) (runID : Int) : List ActionRow :=
  tbl.filter (fun r => r.workflowRunID == runID)

/-! ## Monorepo sync service discovery (`syncMonorepo`)

`DiscoverMicroservices` hard-codes the `services` base path;
`DiscoverMicroservicesInPath` normalises the path and lists its immediate
subdirectories.  The directory listing and the per-service description
derivation are I/O oracles of the model. -/

/-- One entry of a directory listing (`GetContents`). -/
structure ContentEntry where
  name : Str
  isDir : Bool
deriving DecidableEq

/-- A discovered service. -/
structure ServiceInfo where
  name : Str
  path : Str
  description : Str
deriving DecidableEq

/-- The path normalisation of `DiscoverMicroservicesInPath`: strip a trailing
`/` and a leading `./`, defaulting to `services` when empty. -/
def normalizeServicePath (p : Str) : Str :=
  let p1 := if strStartsWith p.reverse (('/') :: []) then p.take (p.length - 1) else p
  let p2 := trimLeadStr p1 (('.') :: '/' :: [])
  if p2 = [] then servicesSeg else p2

/-- `DiscoverMicroservicesInPath` over a listing oracle and a description
oracle: every immediate subdirectory of the normalised base path becomes a
service whose path is `base/name`. -/
def discoverMicroservicesInPath (listing : Str → List ContentEntry)
    (describe : Str → Str) (servicePath : Str) : List ServiceInfo :=
  let base := normalizeServicePath servicePath
  (listing base).filterMap (fun e =>
    if e.isDir then
      let full := base ++ '/' :: e.name
      some ⟨e.name, full, describe full⟩
    else none)

/-- The repository fields consulted by `syncMonorepo`. -/
structure RepoRec where
  serviceName : Str
  serviceLocation : Str
deriving DecidableEq

/-- The synthesized fallback description
`fmt.Sprintf("Service %s located at %s", name, location)`. -/
def synthDescription (repo : RepoRec) : Str :=
  ("Service ").data ++ repo.serviceName ++ (" located at ").data ++ repo.serviceLocation

/-- The discovery part of `syncMonorepo`: services are discovered with
`DiscoverMicroservices` (hard-coded `services` base path); only when nothing
is discovered and the repository has both a configured service name and
location is a single record synthesized from that override. -/
def syncMonorepoServices (listing : Str → List ContentEntry)
    (describe : Str → Str) (repo : RepoRec) : List ServiceInfo :=
  let services := discoverMicroservicesInPath listing describe servicesSeg
  if services = [] ∧ repo.serviceName ≠ [] ∧ repo.serviceLocation ≠ [] then
    [⟨repo.serviceName, repo.serviceLocation, synthDescription repo⟩]
  else services

/-! Closed forms used to reason about `upsertServicesPreserveID`. -/

/-- The effect of one incoming record's update statement on a single row. -/
def applyUpdStep (existing : List MsRow) (now : Nat) (r : MsRow)
    (i : MsInput) : MsRow :=
  match findByKey existing (msInputKey i) with
  | some e => if r.id = e.id then msUpdate i.description now r else r
  | none => r

/-- The cumulative effect of the update statements of one `applyInputs` run
on a single row. -/
def applyUpdAll (existing : List MsRow) (now : Nat) (input : List MsInput)
    (r : MsRow) : MsRow :=
  input.foldl (applyUpdStep existing now) r

/-- The rows inserted by one `applyInputs` run, with their consecutive
autoincrement ids. -/
def freshRows (existing : List MsRow) (now : Nat) : List MsInput → Nat → List MsRow
  | [], _ => []
  | i :: is, n =>
    match findByKey existing (msInputKey i) with
    | some _ => freshRows existing now is n
    | none => msInsertRow n i now :: freshRows existing now is (n + 1)

/-- Number of incoming records whose key misses the pre-read map. -/
def unmatchedCount (existing : List MsRow) (input : List MsInput) : Nat :=
  (input.filter (fun i => (findByKey existing (msInputKey i)).isNone)).length

/-- The matched pre-existing rows after reconciliation: each row whose key
occurs in the input survives with its id, name, path and creation time, its
description replaced by the matching record's. -/
def updatedOldRows (tbl : List MsRow) (now : Nat) (input : List MsInput) :
    List MsRow :=
  tbl.filterMap (fun r =>
    (input.find? (fun i => msInputKey i = msRowKey r)).map
      (fun i => msUpdate i.description now r))

/-- Closed form of the reconciled table: updated surviving rows followed by
the freshly inserted rows. -/
def reconcileSpec (tbl : List MsRow) (nextId now : Nat) (input : List MsInput) :
    List MsRow :=
  updatedOldRows tbl now input ++ freshRows tbl now input nextId

/-- Table well-formedness for the deployments table: unique upsert keys,
unique primary ids, all ids below the autoincrement counter. -/
def deploymentTableOK (tbl : List DeploymentRow) (nextId : Nat) : Prop :=
  (tbl.map deploymentRowKey).Nodup ∧ (tbl.map (fun r => r.id)).Nodup ∧
    ∀ r ∈ tbl, r.id < nextId

/-- Table well-formedness for the microservices table of one repository:
unique natural keys (from `UNIQUE(repository_id, name)`), unique primary ids,
all ids below the autoincrement counter. -/
def msTableOK (tbl : List MsRow) (nextId : Nat) : Prop :=
  (tbl.map msRowKey).Nodup ∧ (tbl.map (fun r => r.id)).Nodup ∧
    ∀ r ∈ tbl, r.id < nextId

/-! # Theorems -/

/-! ## Infrastructure: splitting -/

theorem splitOnChar_of_not_mem (sep : Char) (a : Str) (h : sep ∉ a) :
    splitOnChar sep a = [a] := by
  induction a with
  | nil => rfl
  | cons c cs ih =>
    have hc : c ≠ sep := fun hc => h (hc ▸ List.mem_cons_self c cs)
    have hcs : sep ∉ cs := fun hm => h (List.mem_cons_of_mem c hm)
    simp [splitOnChar, hc, ih hcs]

theorem splitOnChar_append (sep : Char) (a b : Str) (h : sep ∉ a) :
    splitOnChar sep (a ++ sep :: b) = a :: splitOnChar sep b := by
  induction a with
  | nil => simp [splitOnChar]
  | cons c cs ih =>
    have hc : c ≠ sep := fun hc => h (hc ▸ List.mem_cons_self c cs)
    have hcs : sep ∉ cs := fun hm => h (List.mem_cons_of_mem c hm)
    simp [splitOnChar, hc, ih hcs]

theorem splitOnChar_joinWith (c : Char) (ls : List Str) (hne : ls ≠ [])
    (h : ∀ l ∈ ls, c ∉ l) :
    splitOnChar c (joinWith c ls) = ls := by
  induction ls with
  | nil => exact absurd rfl hne
  | cons l ls ih =>
    cases ls with
    | nil => exact splitOnChar_of_not_mem c l (h l (by simp))
    | cons l2 ls2 =>
      rw [show joinWith c (l :: l2 :: ls2) = l ++ c :: joinWith c (l2 :: ls2) from
        rfl]
      rw [splitOnChar_append c l _ (h l (by simp))]
      rw [ih (by simp) (fun x hx => h x (List.mem_cons_of_mem l hx))]

theorem splitOnChar_mkOverlayPath (svc env region ns : Str)
    (h1 : '/' ∉ svc) (h2 : '/' ∉ env) (h3 : '/' ∉ region) (h4 : '/' ∉ ns) :
    splitOnChar '/' (mkOverlayPath svc env region ns) =
      [servicesSeg, svc, overlaysSeg, env, region, ns,
        ("kustomization.yaml").data] := by
  unfold mkOverlayPath
  refine splitOnChar_joinWith '/' _ (by simp) ?_
  intro l hl
  simp only [List.mem_cons, List.not_mem_nil, or_false] at hl
  rcases hl with rfl | rfl | rfl | rfl | rfl | rfl | rfl
  · decide
  · exact h1
  · decide
  · exact h2
  · exact h3
  · exact h4
  · decide

theorem deriveCoordinates_eq_none_of_bad (path : Str)
    (hbad : (splitOnChar '/' path).length < 7 ∨
      (splitOnChar '/' path)[0]? ≠ some servicesSeg ∨
      (splitOnChar '/' path)[2]? ≠ some overlaysSeg) :
    deriveCoordinates path = none := by
  unfold deriveCoordinates
  set parts := splitOnChar '/' path with hparts
  clear_value parts
  rcases parts with _ | ⟨p0, _ | ⟨p1, _ | ⟨p2, _ | ⟨p3, _ | ⟨p4, _ | ⟨p5, rest⟩⟩⟩⟩⟩⟩
  all_goals try (simp; done)
  rcases hbad with h | h | h
  · have hlen0 : rest.length = 0 := by
      simp only [List.length_cons] at h
      omega
    have hrest : rest = [] := List.length_eq_zero.mp hlen0
    subst hrest
    simp
  · have hp0 : p0 ≠ servicesSeg := by simpa using h
    split
    · rfl
    · simp [hp0]
  · have hp2 : p2 ≠ overlaysSeg := by simpa using h
    split
    · rfl
    · simp [hp2]

/-- C8: a path of the form
`services/<svc>/overlays/<env>/<region>/<ns>/kustomization.yaml` derives
exactly the four coordinates `(svc, env, region, ns)`, and a path with fewer
than the required segments or without the `services`/`overlays` markers at
the expected offsets only makes the scan skip that file — the rest of the
scan proceeds and no error is raised. -/
theorem c8_path_coordinates (svc env region ns : Str)
    (h1 : '/' ∉ svc) (h2 : '/' ∉ env) (h3 : '/' ∉ region) (h4 : '/' ∉ ns) :
    deriveCoordinates (mkOverlayPath svc env region ns) =
      some ⟨svc, env, region, ns⟩ ∧
    ∀ (f : FileEntry) (files : List FileEntry),
      ((splitOnChar '/' f.path).length < 7 ∨
        (splitOnChar '/' f.path)[0]? ≠ some servicesSeg ∨
        (splitOnChar '/' f.path)[2]? ≠ some overlaysSeg) →
      scanKustomizationFiles (f :: files) = scanKustomizationFiles files := by
  constructor
  · unfold deriveCoordinates
    rw [splitOnChar_mkOverlayPath svc env region ns h1 h2 h3 h4]
    simp
  · intro f files hbad
    have hnone : deriveCoordinates f.path = none :=
      deriveCoordinates_eq_none_of_bad f.path hbad
    unfold scanKustomizationFiles
    rw [List.filterMap_cons]
    unfold scanKustomizationFile
    rw [hnone]

theorem c8_path_coordinates_witness :
    deriveCoordinates
        (mkOverlayPath ("payment-api").data ("prod").data ("us-west-2").data
          ("billing").data) =
      some ⟨("payment-api").data, ("prod").data, ("us-west-2").data,
        ("billing").data⟩ ∧
    scanKustomizationFiles [⟨("services/x").data, none, []⟩] =
      scanKustomizationFiles [] :=
  ⟨(c8_path_coordinates (("payment-api").data) (("prod").data)
      (("us-west-2").data) (("billing").data) (by decide) (by decide)
      (by decide) (by decide)).1,
   (c8_path_coordinates (("payment-api").data) (("prod").data)
      (("us-west-2").data) (("billing").data) (by decide) (by decide)
      (by decide) (by decide)).2 ⟨("services/x").data, none, []⟩ []
      (by left; decide)⟩

/-! ## C2: 40-hex tags short-circuit correlation -/

/-- C2: for a manifest tag of exactly 40 hexadecimal characters, the sync
uses the tag itself as the deployment's commit SHA, and the produced
deployment row does not depend on the correlation routine at all (so no
correlation work, in particular no network call, is performed). -/
theorem c2_hex_tag_used_directly (services : List ServiceRec) (repoID : Int)
    (kd : KustomizationDeployment) (correlate correlate2 : Int → Str → Str)
    (h40 : kd.tag.length = 40) (hhex : isHexString kd.tag = true)
    (hmatch : matchServiceID services kd.serviceName ≠ 0) :
    processKustomizationDeployment services correlate repoID kd =
      some ⟨matchServiceID services kd.serviceName, repoID, kd.tag,
        kd.environment, kd.region, kd.namespc, kd.tag, kd.path⟩ ∧
    processKustomizationDeployment services correlate repoID kd =
      processKustomizationDeployment services correlate2 repoID kd := by
  unfold processKustomizationDeployment resolveDeploymentCommitSHA
  simp [hmatch, h40, hhex]

theorem c2_hex_tag_used_directly_witness :
    processKustomizationDeployment [⟨3, ("payment-api").data⟩]
        (fun _ _ => ("bogus").data) 9
        ⟨("payment-api").data, ("prd").data, ("us").data, ("ns1").data,
          List.replicate 40 'a', ("p").data, ("k8scommit").data⟩ =
      some ⟨3, 9, List.replicate 40 'a', ("prd").data, ("us").data,
        ("ns1").data, List.replicate 40 'a', ("p").data⟩ := by
  have h := c2_hex_tag_used_directly [⟨3, ("payment-api").data⟩] 9
    ⟨("payment-api").data, ("prd").data, ("us").data, ("ns1").data,
      List.replicate 40 'a', ("p").data, ("k8scommit").data⟩
    (fun _ _ => ("bogus").data) (fun _ _ => ("other").data)
    (by decide) (by decide) (by decide)
  simpa using h.1

/-! ## C6: action rows are not unique per workflow run id -/

/-- C6 (code bug witness): the actions table has no uniqueness constraint on
`workflow_run_id`, so `INSERT OR REPLACE` (with `id` auto-assigned) never
conflicts: re-upserting the same workflow run leaves two rows for run id 100
instead of replacing the first. -/
theorem c6_duplicate_rows_for_same_run :
    (actionRowsForRun
      (upsertActions
        (upsertActions [] 1
          [⟨7, ("deployment").data, ("queued").data, 100, ("c1").data,
            ("main").data⟩]).1
        (upsertActions [] 1
          [⟨7, ("deployment").data, ("queued").data, 100, ("c1").data,
            ("main").data⟩]).2
        [⟨7, ("deployment").data, ("completed").data, 100, ("c2").data,
          ("main").data⟩]).1
      100).length = 2 := by decide

/-! ## C9: monorepo discovery ignores the configured service directory -/

/-- C9 counterexample: a repository whose configured service location
`custom` holds a discoverable service directory, while the default
`services` directory is empty.  The claim predicts discovery under `custom`;
the sync discovers nothing, because it always lists the default directory. -/
theorem c9_counterexample :
    syncMonorepoServices
        (fun p => if p = ("custom").data then [⟨("svc-a").data, true⟩] else [])
        (fun _ => []) ⟨[], ("custom").data⟩ = [] ∧
    discoverMicroservicesInPath
        (fun p => if p = ("custom").data then [⟨("svc-a").data, true⟩] else [])
        (fun _ => []) (("custom").data) =
      [⟨("svc-a").data, ("custom/svc-a").data, []⟩] ∧
    ([] : List ServiceInfo) ≠ [⟨("svc-a").data, ("custom/svc-a").data, []⟩] := by
  refine ⟨by decide, by decide, by decide⟩

/-- C9 (amended): the monorepo sync always discovers under the default
`services` directory, regardless of the configured service location; the
configured service name and location are used only to synthesize exactly one
service record when discovery comes back empty and both are set. -/
theorem c9_amended_default_dir_and_synthesis
    (listing : Str → List ContentEntry) (describe : Str → Str) (repo : RepoRec) :
    (discoverMicroservicesInPath listing describe servicesSeg ≠ [] →
      syncMonorepoServices listing describe repo =
        discoverMicroservicesInPath listing describe servicesSeg) ∧
    (discoverMicroservicesInPath listing describe servicesSeg = [] →
      repo.serviceName ≠ [] → repo.serviceLocation ≠ [] →
      syncMonorepoServices listing describe repo =
        [⟨repo.serviceName, repo.serviceLocation, synthDescription repo⟩]) := by
  unfold syncMonorepoServices
  constructor
  · intro h
    simp [h]
  · intro h h1 h2
    simp [h, h1, h2]

theorem c9_amended_default_dir_and_synthesis_witness :
    discoverMicroservicesInPath
        (fun p => if p = ("services").data then [⟨("svc-b").data, true⟩] else [])
        (fun _ => []) servicesSeg ≠ [] ∧
    syncMonorepoServices
        (fun p => if p = ("services").data then [⟨("svc-b").data, true⟩] else [])
        (fun _ => []) ⟨("n").data, ("loc").data⟩ =
      discoverMicroservicesInPath
        (fun p => if p = ("services").data then [⟨("svc-b").data, true⟩] else [])
        (fun _ => []) servicesSeg :=
  ⟨by decide,
   (c9_amended_default_dir_and_synthesis
      (fun p => if p = ("services").data then [⟨("svc-b").data, true⟩] else [])
      (fun _ => []) ⟨("n").data, ("loc").data⟩).1 (by decide)⟩

/-! ## C1: correlation strategy order -/

theorem commitMatchesTag_sha_isSome {tag : Str} {c : CommitInfo}
    (h : commitMatchesTag tag c = true) : ∃ s, c.sha = some s := by
  unfold commitMatchesTag at h
  cases hsha : c.sha with
  | none => rw [hsha] at h; simp at h
  | some s => exact ⟨s, rfl⟩

theorem gitTagMatchesTag_sha_isSome {tag : Str} {g : GitTagInfo}
    (h : gitTagMatchesTag tag g = true) : ∃ s, g.commitSha = some s := by
  unfold gitTagMatchesTag at h
  cases hsha : g.commitSha with
  | none =>
    rw [hsha] at h
    cases g.name <;> simp at h
  | some s => exact ⟨s, rfl⟩

theorem scanCommitsForTag_eq_find (tag : Str) (cs : List CommitInfo) :
    scanCommitsForTag tag cs =
      (cs.find? (commitMatchesTag tag)).bind (fun c => c.sha) := by
  induction cs with
  | nil => rfl
  | cons c cs ih =>
    by_cases hm : commitMatchesTag tag c = true
    · rw [List.find?_cons_of_pos _ hm]
      unfold commitMatchesTag at hm
      unfold scanCommitsForTag
      cases hsha : c.sha with
      | none => rw [hsha] at hm; simp at hm
      | some sha =>
        cases hmsg : c.message with
        | none => rw [hsha, hmsg] at hm; simp at hm
        | some msg =>
          rw [hsha, hmsg] at hm
          simp only [Option.bind_some] at *
          by_cases h1 : strContainsSub (lowerStr msg) (lowerStr tag) = true
          · simp [h1, hsha]
          · have h2 : (strContainsSub tag releaseMarker &&
                strContainsSub (lowerStr msg) (trimLeadStr tag releaseMarker)) =
                true := by
              rcases Bool.or_eq_true_iff.mp hm with h | h
              · exact absurd h h1
              · exact h
            simp [h1, h2, hsha]
    · rw [List.find?_cons_of_neg _ hm]
      unfold commitMatchesTag at hm
      unfold scanCommitsForTag
      cases hsha : c.sha with
      | none => exact ih
      | some sha =>
        cases hmsg : c.message with
        | none => exact ih
        | some msg =>
          rw [hsha, hmsg] at hm
          simp only [Bool.or_eq_true_iff, not_or] at hm
          simp [hm.1, hm.2, ih]

theorem scanGitTagsForTag_eq_find (tag : Str) (gs : List GitTagInfo) :
    scanGitTagsForTag tag gs =
      (gs.find? (gitTagMatchesTag tag)).bind (fun g => g.commitSha) := by
  induction gs with
  | nil => rfl
  | cons g gs ih =>
    by_cases hm : gitTagMatchesTag tag g = true
    · rw [List.find?_cons_of_pos _ hm]
      unfold gitTagMatchesTag at hm
      unfold scanGitTagsForTag
      cases hn : g.name with
      | none => rw [hn] at hm; simp at hm
      | some n =>
        cases hsha : g.commitSha with
        | none => rw [hn, hsha] at hm; simp at hm
        | some sha =>
          rw [hn, hsha] at hm
          have hm2 : eqFold n tag = true := hm
          simp [hn, hsha, hm2]
    · rw [List.find?_cons_of_neg _ hm]
      unfold gitTagMatchesTag at hm
      unfold scanGitTagsForTag
      cases hn : g.name with
      | none => simp [hn, ih]
      | some n =>
        cases hsha : g.commitSha with
        | none => simp [hn, hsha, ih]
        | some sha =>
          rw [hn, hsha] at hm
          have hm2 : eqFold n tag = false := by
            rcases Bool.eq_false_or_eq_true (eqFold n tag) with h | h
            · exact absurd h hm
            · exact h
          simp [hn, hsha, hm2, ih]

/-- C1 (amended): the two commit-message checks are not two sequential
scans; they are tried together, commit by commit, in one pass over the up to
50 listed commits — for each commit, first the case-insensitive raw-tag
substring check, then (when the tag contains `release-`) the version check —
and the first commit satisfying either check wins.  The VCS tag lookup
(case-insensitive exact name) runs only after that single pass fails. -/
theorem c1_amended_interleaved_strategy_order (commits : List CommitInfo)
    (gitTags : List GitTagInfo) (tag : Str) :
    correlateTagWithCommit commits gitTags tag =
      correlateSpecInterleaved commits gitTags tag := by
  unfold correlateTagWithCommit correlateSpecInterleaved
  rw [scanCommitsForTag_eq_find, scanGitTagsForTag_eq_find]
  cases hf : commits.find? (commitMatchesTag tag) with
  | some c =>
    obtain ⟨s, hs⟩ := commitMatchesTag_sha_isSome (List.find?_some hf)
    simp [hs]
  | none =>
    cases hg : gitTags.find? (gitTagMatchesTag tag) with
    | some g =>
      obtain ⟨s, hs⟩ := gitTagMatchesTag_sha_isSome (List.find?_some hg)
      simp [hs]
    | none => simp

/-- C1 counterexample: tag `release-2.4.0` against a commit list whose first
commit message contains only the version `2.4.0` while the second commit
message contains the raw tag.  The claim's strict strategy order requires
the raw-tag scan to win (commit `sha2`); the code returns `sha1` from the
version check during the single interleaved pass. -/
theorem c1_counterexample :
    correlateTagWithCommit
        [⟨some (("sha1").data), some (("prep 2.4.0").data)⟩,
         ⟨some (("sha2").data), some (("cut release-2.4.0").data)⟩]
        [] (("release-2.4.0").data) = ("sha1").data ∧
    strContainsSub (lowerStr (("cut release-2.4.0").data))
        (lowerStr (("release-2.4.0").data)) = true ∧
    strContainsSub (lowerStr (("prep 2.4.0").data))
        (lowerStr (("release-2.4.0").data)) = false ∧
    ("sha1").data ≠ ("sha2").data := by
  refine ⟨by decide, by decide, by decide, by decide⟩

/-! ## C3: correlation failure never blocks the upsert -/

/-- C3 (amended): for a matched manifest whose tag fails all correlation
strategies, the deployment row is still produced and handed to the upsert,
with its commit SHA equal to the kubernetes repository's own commit recorded
for the manifest file by the scan — which is the head of the per-file commit
listing when one is available and the empty string otherwise (it is not
guaranteed non-empty). -/
theorem c3_correlation_failure_falls_back (services : List ServiceRec)
    (correlate : Int → Str → Str) (repoID : Int)
    (kd : KustomizationDeployment) (f : FileEntry)
    (hm : matchServiceID services kd.serviceName ≠ 0)
    (hn40 : kd.tag.length ≠ 40 ∨ isHexString kd.tag = false)
    (hcorr : correlate (matchServiceID services kd.serviceName) kd.tag = []) :
    processKustomizationDeployment services correlate repoID kd =
      some ⟨matchServiceID services kd.serviceName, repoID, kd.commitSHA,
        kd.environment, kd.region, kd.namespc, kd.tag, kd.path⟩ ∧
    (scanKustomizationFile f = some kd →
      kd.commitSHA = fileCommitSHA f.commits) := by
  constructor
  · have hcond : (decide (kd.tag.length = 40) && isHexString kd.tag) = false := by
      rcases hn40 with h | h <;> simp [h]
    unfold processKustomizationDeployment resolveDeploymentCommitSHA
    simp [hm, hcond, hcorr]
  · intro hscan
    unfold scanKustomizationFile at hscan
    cases hd : deriveCoordinates f.path with
    | none => rw [hd] at hscan; cases hscan
    | some co =>
      rw [hd] at hscan
      cases hc : f.content with
      | none => rw [hc] at hscan; cases hscan
      | some content =>
        rw [hc] at hscan
        simp only [] at hscan
        split at hscan
        · cases hscan
        · have := Option.some.inj hscan
          rw [← this]

theorem c3_correlation_failure_falls_back_witness :
    processKustomizationDeployment [⟨1, ("payment-api").data⟩]
        (fun _ _ => []) 5
        ⟨("payment-api").data, ("prd").data, ("us").data, ("ns1").data,
          ("v9").data,
          mkOverlayPath (("payment-api").data) (("prd").data) (("us").data)
            (("ns1").data),
          ("abc123").data⟩ =
      some ⟨1, 5, ("abc123").data, ("prd").data, ("us").data, ("ns1").data,
        ("v9").data,
        mkOverlayPath (("payment-api").data) (("prd").data) (("us").data)
          (("ns1").data)⟩ :=
  (c3_correlation_failure_falls_back [⟨1, ("payment-api").data⟩]
    (fun _ _ => []) 5
    ⟨("payment-api").data, ("prd").data, ("us").data, ("ns1").data,
      ("v9").data,
      mkOverlayPath (("payment-api").data) (("prd").data) (("us").data)
        (("ns1").data),
      ("abc123").data⟩
    ⟨mkOverlayPath (("payment-api").data) (("prd").data) (("us").data)
        (("ns1").data),
      none, [some (("abc123").data)]⟩
    (by decide) (Or.inl (by decide)) rfl).1

/-- C3 counterexample: when the per-file commit listing of the scan comes
back empty, the scanned record's commit SHA is the empty string, and a
matched manifest whose correlation fails is upserted with that empty commit
SHA — the fallback is not non-empty. -/
theorem c3_counterexample :
    scanKustomizationFiles
        [⟨mkOverlayPath (("payment-api").data) (("prd").data) (("us").data)
            (("ns1").data),
          some (renderImagesBlock
            [⟨("payment-api").data, ("reg/payment-api").data, ("v9").data⟩]),
          []⟩] =
      [⟨("payment-api").data, ("prd").data, ("us").data, ("ns1").data,
        ("v9").data,
        mkOverlayPath (("payment-api").data) (("prd").data) (("us").data)
          (("ns1").data),
        []⟩] ∧
    processKustomizationDeployment [⟨1, ("payment-api").data⟩]
        (fun _ _ => []) 5
        ⟨("payment-api").data, ("prd").data, ("us").data, ("ns1").data,
          ("v9").data,
          mkOverlayPath (("payment-api").data) (("prd").data) (("us").data)
            (("ns1").data),
          []⟩ =
      some ⟨1, 5, [], ("prd").data, ("us").data, ("ns1").data, ("v9").data,
        mkOverlayPath (("payment-api").data) (("prd").data) (("us").data)
          (("ns1").data)⟩ ∧
    (⟨1, 5, [], ("prd").data, ("us").data, ("ns1").data, ("v9").data,
        mkOverlayPath (("payment-api").data) (("prd").data) (("us").data)
          (("ns1").data)⟩ : DeploymentData).commitSHA = [] := by
  refine ⟨by decide, by decide, rfl⟩

/-! ## C4: deployment upsert keeps one row per key -/

theorem filter_key_eq_singleton {α β : Type} [DecidableEq β] (f : α → β) :
    ∀ (l : List α) (a : α), (l.map f).Nodup → a ∈ l →
      l.filter (fun x => f x = f a) = [a] := by
  intro l
  induction l with
  | nil => intro a _ ha; cases ha
  | cons b l ih =>
    intro a hnd ha
    rw [List.map_cons, List.nodup_cons] at hnd
    rcases List.mem_cons.mp ha with rfl | ha
    · have hnil : l.filter (fun x => f x = f a) = [] := by
        rw [List.filter_eq_nil_iff]
        intro x hx
        simp only [decide_eq_true_eq]
        intro hfx
        exact hnd.1 (hfx ▸ List.mem_map_of_mem f hx)
      simp [List.filter_cons, hnil]
    · have hne : ¬(f b = f a) := fun h =>
        hnd.1 (h ▸ List.mem_map_of_mem f ha)
      simp [List.filter_cons, hne, ih a hnd.2 ha]

theorem deploymentRowKey_update (r : DeploymentRow) (d : DeploymentData)
    (now : Nat) :
    deploymentRowKey (deploymentRowUpdate d now r) = deploymentRowKey r := rfl

theorem deploymentUpsert_eq_none (tbl : List DeploymentRow) (nextId now : Nat)
    (d : DeploymentData)
    (hf : tbl.find? (fun r => deploymentRowKey r = deploymentDataKey d) = none) :
    deploymentUpsert tbl nextId now d =
      (tbl ++ [deploymentRowNew d nextId now], nextId + 1) := by
  unfold deploymentUpsert
  rw [hf]

theorem deploymentUpsert_eq_some (tbl : List DeploymentRow) (nextId now : Nat)
    (d : DeploymentData) (e : DeploymentRow)
    (hf : tbl.find? (fun r => deploymentRowKey r = deploymentDataKey d) =
      some e) :
    deploymentUpsert tbl nextId now d =
      (tbl.map (fun r => if r.id = e.id then deploymentRowUpdate d now r else r),
        nextId) := by
  unfold deploymentUpsert
  rw [hf]

theorem deploymentUpsert_filter (tbl : List DeploymentRow) (nextId now : Nat)
    (d : DeploymentData) (hok : deploymentTableOK tbl nextId) :
    ∃ r, (deploymentUpsert tbl nextId now d).1.filter
        (fun x => deploymentRowKey x = deploymentDataKey d) = [r] ∧
      r.commitSHA = d.commitSHA ∧ r.tag = d.tag ∧ r.path = d.path := by
  cases hf : tbl.find? (fun r => deploymentRowKey r = deploymentDataKey d) with
  | none =>
    rw [deploymentUpsert_eq_none tbl nextId now d hf]
    refine ⟨deploymentRowNew d nextId now, ?_, rfl, rfl, rfl⟩
    rw [List.filter_append]
    have h1 : tbl.filter (fun x => deploymentRowKey x = deploymentDataKey d) = [] := by
      rw [List.filter_eq_nil_iff]
      intro x hx
      have := List.find?_eq_none.mp hf x hx
      simpa using this
    rw [h1]
    simp [deploymentRowNew, deploymentRowKey, deploymentDataKey]
  | some e =>
    have hmem : e ∈ tbl := List.mem_of_find?_eq_some hf
    have hkey : deploymentRowKey e = deploymentDataKey d := by
      have := List.find?_some hf
      simpa using this
    rw [deploymentUpsert_eq_some tbl nextId now d e hf]
    refine ⟨deploymentRowUpdate d now e, ?_, rfl, rfl, rfl⟩
    have hmapfilter :
        (tbl.map (fun r => if r.id = e.id then deploymentRowUpdate d now r else r)).filter
          (fun x => deploymentRowKey x = deploymentDataKey d) =
        (tbl.filter (fun x => deploymentRowKey x = deploymentDataKey d)).map
          (fun r => if r.id = e.id then deploymentRowUpdate d now r else r) := by
      rw [List.filter_map]
      congr 1
      apply List.filter_congr
      intro x hx
      by_cases hid : x.id = e.id <;>
        simp [hid, Function.comp, deploymentRowKey_update]
    rw [hmapfilter]
    have hsingle : tbl.filter (fun x => deploymentRowKey x = deploymentDataKey d) = [e] := by
      have := filter_key_eq_singleton deploymentRowKey tbl e hok.1 hmem
      rw [hkey] at this
      exact this
    rw [hsingle]
    simp

theorem deploymentUpsert_tableOK (tbl : List DeploymentRow) (nextId now : Nat)
    (d : DeploymentData) (hok : deploymentTableOK tbl nextId) :
    deploymentTableOK (deploymentUpsert tbl nextId now d).1
      (deploymentUpsert tbl nextId now d).2 := by
  obtain ⟨hkeys, hids, hlt⟩ := hok
  cases hf : tbl.find? (fun r => deploymentRowKey r = deploymentDataKey d) with
  | none =>
    rw [deploymentUpsert_eq_none tbl nextId now d hf]
    refine ⟨?_, ?_, ?_⟩
    · rw [List.map_append, List.nodup_append]
      refine ⟨hkeys, by simp, ?_⟩
      intro k hk
      simp only [List.map_cons, List.map_nil, List.mem_singleton]
      intro hkd
      subst hkd
      obtain ⟨r, hr, hrk⟩ := List.mem_map.mp hk
      have := List.find?_eq_none.mp hf r hr
      simp only [decide_eq_true_eq] at this
      exact this (by simpa [deploymentRowNew, deploymentRowKey,
        deploymentDataKey] using hrk)
    · rw [List.map_append, List.nodup_append]
      refine ⟨hids, by simp, ?_⟩
      intro k hk
      simp only [List.map_cons, List.map_nil, List.mem_singleton]
      intro hkd
      obtain ⟨r, hr, hrk⟩ := List.mem_map.mp hk
      have hrlt := hlt r hr
      rw [hrk, hkd] at hrlt
      exact absurd hrlt (lt_irrefl _)
    · intro r hr
      rcases List.mem_append.mp hr with h | h
      · exact Nat.lt_succ_of_lt (hlt r h)
      · simp only [List.mem_singleton] at h
        subst h
        exact Nat.lt_succ_self nextId
  | some e =>
    rw [deploymentUpsert_eq_some tbl nextId now d e hf]
    refine ⟨?_, ?_, ?_⟩
    · have heq : (tbl.map (fun r =>
          if r.id = e.id then deploymentRowUpdate d now r else r)).map
            deploymentRowKey = tbl.map deploymentRowKey := by
        rw [List.map_map]
        apply List.map_congr_left
        intro x _
        by_cases hid : x.id = e.id <;>
          simp [hid, Function.comp, deploymentRowKey_update]
      rw [heq]
      exact hkeys
    · have heq : (tbl.map (fun r =>
          if r.id = e.id then deploymentRowUpdate d now r else r)).map
            (fun r => r.id) = tbl.map (fun r => r.id) := by
        rw [List.map_map]
        apply List.map_congr_left
        intro x _
        by_cases hid : x.id = e.id <;> simp [hid, Function.comp, deploymentRowUpdate]
      rw [heq]
      exact hids
    · intro r hr
      obtain ⟨x, hx, hxr⟩ := List.mem_map.mp hr
      by_cases hid : x.id = e.id
      · rw [if_pos hid] at hxr
        rw [← hxr]
        exact hid ▸ hlt x hx
      · rw [if_neg hid] at hxr
        exact hxr ▸ hlt x hx

/-- C4: two deployment upserts with the same
`(service, environment, region, namespace)` key leave exactly one row for
that key, carrying the commit SHA, tag and path of the most recent upsert,
and the key tuple stays unique across the table after each upsert. -/
theorem c4_deployment_upsert_key_unique (tbl : List DeploymentRow)
    (nextId now1 now2 : Nat) (d1 d2 : DeploymentData)
    (hok : deploymentTableOK tbl nextId)
    (hkey : deploymentDataKey d1 = deploymentDataKey d2) :
    (((deploymentUpsert (deploymentUpsert tbl nextId now1 d1).1
          (deploymentUpsert tbl nextId now1 d1).2 now2 d2).1.filter
        (fun x => deploymentRowKey x = deploymentDataKey d1)).length = 1 ∧
      ∀ r ∈ (deploymentUpsert (deploymentUpsert tbl nextId now1 d1).1
          (deploymentUpsert tbl nextId now1 d1).2 now2 d2).1,
        deploymentRowKey r = deploymentDataKey d2 →
        r.commitSHA = d2.commitSHA ∧ r.tag = d2.tag ∧ r.path = d2.path) ∧
    ((deploymentUpsert tbl nextId now1 d1).1.map deploymentRowKey).Nodup ∧
    ((deploymentUpsert (deploymentUpsert tbl nextId now1 d1).1
        (deploymentUpsert tbl nextId now1 d1).2 now2 d2).1.map
      deploymentRowKey).Nodup := by
  have hok1 := deploymentUpsert_tableOK tbl nextId now1 d1 hok
  have hok2 := deploymentUpsert_tableOK (deploymentUpsert tbl nextId now1 d1).1
    (deploymentUpsert tbl nextId now1 d1).2 now2 d2 hok1
  obtain ⟨r, hfilter, hsha, htag, hpath⟩ :=
    deploymentUpsert_filter (deploymentUpsert tbl nextId now1 d1).1
      (deploymentUpsert tbl nextId now1 d1).2 now2 d2 hok1
  refine ⟨⟨by rw [hkey, hfilter]; rfl, ?_⟩, hok1.1, hok2.1⟩
  intro x hx hxkey
  have hxmem : x ∈ (deploymentUpsert (deploymentUpsert tbl nextId now1 d1).1
      (deploymentUpsert tbl nextId now1 d1).2 now2 d2).1.filter
      (fun y => deploymentRowKey y = deploymentDataKey d2) :=
    List.mem_filter.mpr ⟨hx, by simpa using hxkey⟩
  rw [hfilter] at hxmem
  simp only [List.mem_singleton] at hxmem
  subst hxmem
  exact ⟨hsha, htag, hpath⟩

theorem c4_deployment_upsert_key_unique_witness :
    (((deploymentUpsert
          (deploymentUpsert [] 1 10
            ⟨1, 2, ("sha-a").data, ("prd").data, ("us").data, ("ns").data,
              ("tag-a").data, ("p1").data⟩).1
          (deploymentUpsert [] 1 10
            ⟨1, 2, ("sha-a").data, ("prd").data, ("us").data, ("ns").data,
              ("tag-a").data, ("p1").data⟩).2 11
          ⟨1, 2, ("sha-b").data, ("prd").data, ("us").data, ("ns").data,
            ("tag-b").data, ("p2").data⟩).1.filter
        (fun x => deploymentRowKey x = deploymentDataKey
          ⟨1, 2, ("sha-a").data, ("prd").data, ("us").data, ("ns").data,
            ("tag-a").data, ("p1").data⟩)).length = 1 ∧
      ∀ r ∈ (deploymentUpsert
          (deploymentUpsert [] 1 10
            ⟨1, 2, ("sha-a").data, ("prd").data, ("us").data, ("ns").data,
              ("tag-a").data, ("p1").data⟩).1
          (deploymentUpsert [] 1 10
            ⟨1, 2, ("sha-a").data, ("prd").data, ("us").data, ("ns").data,
              ("tag-a").data, ("p1").data⟩).2 11
          ⟨1, 2, ("sha-b").data, ("prd").data, ("us").data, ("ns").data,
            ("tag-b").data, ("p2").data⟩).1,
        deploymentRowKey r = deploymentDataKey
          ⟨1, 2, ("sha-b").data, ("prd").data, ("us").data, ("ns").data,
            ("tag-b").data, ("p2").data⟩ →
        r.commitSHA = ("sha-b").data ∧ r.tag = ("tag-b").data ∧
          r.path = ("p2").data) ∧
    ((deploymentUpsert [] 1 10
        ⟨1, 2, ("sha-a").data, ("prd").data, ("us").data, ("ns").data,
          ("tag-a").data, ("p1").data⟩).1.map deploymentRowKey).Nodup ∧
    ((deploymentUpsert
        (deploymentUpsert [] 1 10
          ⟨1, 2, ("sha-a").data, ("prd").data, ("us").data, ("ns").data,
            ("tag-a").data, ("p1").data⟩).1
        (deploymentUpsert [] 1 10
          ⟨1, 2, ("sha-a").data, ("prd").data, ("us").data, ("ns").data,
            ("tag-a").data, ("p1").data⟩).2 11
        ⟨1, 2, ("sha-b").data, ("prd").data, ("us").data, ("ns").data,
          ("tag-b").data, ("p2").data⟩).1.map deploymentRowKey).Nodup :=
  c4_deployment_upsert_key_unique [] 1 10 11
    ⟨1, 2, ("sha-a").data, ("prd").data, ("us").data, ("ns").data,
      ("tag-a").data, ("p1").data⟩
    ⟨1, 2, ("sha-b").data, ("prd").data, ("us").data, ("ns").data,
      ("tag-b").data, ("p2").data⟩
    (by refine ⟨by simp, by simp, ?_⟩; intro r hr; cases hr) rfl

/-! ## Scanner infrastructure -/

theorem dropLeadWhile_cons_pos (p : Char → Bool) (c : Char) (s : Str)
    (h : p c = true) :
    dropLeadWhile p (c :: s) = dropLeadWhile p s := by simp [dropLeadWhile, h]

theorem dropLeadWhile_cons_neg (p : Char → Bool) (c : Char) (s : Str)
    (h : p c = false) :
    dropLeadWhile p (c :: s) = c :: s := by simp [dropLeadWhile, h]

theorem dropLeadWhile_append_of_ne_nil (p : Char → Bool) (x y : Str)
    (h : dropLeadWhile p x ≠ []) :
    dropLeadWhile p (x ++ y) = dropLeadWhile p x ++ y := by
  induction x with
  | nil => exact absurd rfl h
  | cons c cs ih =>
    by_cases hc : p c = true
    · rw [List.cons_append, dropLeadWhile_cons_pos _ _ _ hc,
        dropLeadWhile_cons_pos _ _ _ hc]
      exact ih (by rwa [dropLeadWhile_cons_pos _ _ _ hc] at h)
    · have hc2 : p c = false := by simpa using hc
      rw [List.cons_append, dropLeadWhile_cons_neg _ _ _ hc2,
        dropLeadWhile_cons_neg _ _ _ hc2]
      simp

theorem dropTrailWhile_append_of_ne_nil (p : Char → Bool) (x y : Str)
    (h : dropTrailWhile p y ≠ []) :
    dropTrailWhile p (x ++ y) = x ++ dropTrailWhile p y := by
  unfold dropTrailWhile at *
  rw [List.reverse_append]
  rw [dropLeadWhile_append_of_ne_nil p y.reverse x.reverse (by
    intro hnil
    exact h (by rw [hnil]; simp))]
  simp

theorem trimSpace_cons_space (s : Str) : trimSpace (' ' :: s) = trimSpace s := by
  unfold trimSpace
  rw [dropLeadWhile_cons_pos _ _ _ (by decide)]

theorem trimSpace_nameLine (e : ImageEntry) (hg : goodField e.name) :
    trimSpace (nameLine e) = nameLine e := by
  unfold trimSpace nameLine
  rw [show (("- name: ").data ++ e.name) = '-' :: ((" name: ").data ++ e.name)
    from rfl]
  rw [dropLeadWhile_cons_neg _ _ _ (by decide)]
  rw [show ('-' :: ((" name: ").data ++ e.name)) = (("- name: ").data ++ e.name)
    from rfl]
  rw [dropTrailWhile_append_of_ne_nil _ _ _ (by rw [hg.2.2]; exact hg.1),
    hg.2.2]

theorem trimSpace_newNameLine (e : ImageEntry) (hg : goodField e.newName) :
    trimSpace (newNameLine e) = ("newName: ").data ++ e.newName := by
  unfold trimSpace newNameLine
  rw [show (("  newName: ").data ++ e.newName) =
    ' ' :: ' ' :: 'n' :: (("ewName: ").data ++ e.newName) from rfl]
  rw [dropLeadWhile_cons_pos _ _ _ (by decide),
    dropLeadWhile_cons_pos _ _ _ (by decide),
    dropLeadWhile_cons_neg _ _ _ (by decide)]
  rw [show ('n' :: (("ewName: ").data ++ e.newName)) =
    (("newName: ").data ++ e.newName) from rfl]
  rw [dropTrailWhile_append_of_ne_nil _ _ _ (by rw [hg.2.2]; exact hg.1),
    hg.2.2]

theorem trimSpace_newTagLine (e : ImageEntry) (hg : goodField e.newTag) :
    trimSpace (newTagLine e) = ("newTag: ").data ++ e.newTag := by
  unfold trimSpace newTagLine
  rw [show (("  newTag: ").data ++ e.newTag) =
    ' ' :: ' ' :: 'n' :: (("ewTag: ").data ++ e.newTag) from rfl]
  rw [dropLeadWhile_cons_pos _ _ _ (by decide),
    dropLeadWhile_cons_pos _ _ _ (by decide),
    dropLeadWhile_cons_neg _ _ _ (by decide)]
  rw [show ('n' :: (("ewTag: ").data ++ e.newTag)) =
    (("newTag: ").data ++ e.newTag) from rfl]
  rw [dropTrailWhile_append_of_ne_nil _ _ _ (by rw [hg.2.2]; exact hg.1),
    hg.2.2]

theorem beq_cons_ne_head (c c2 : Char) (xs ys : Str) (h : c ≠ c2) :
    ((c :: xs : Str) == c2 :: ys) = false := by
  rw [beq_eq_false_iff_ne]
  intro heq
  exact h (List.cons.inj heq).1

theorem strStartsWith_cons_self (c : Char) (xs : Str) :
    strStartsWith (c :: xs) [c] = true := by simp [strStartsWith]

theorem strStartsWith_cons_ne (c c2 : Char) (xs ys : Str) (h : c ≠ c2) :
    strStartsWith (c :: xs) (c2 :: ys) = false := by simp [strStartsWith, h]

theorem strStartsWith_append_left (x y n : Str)
    (h : strStartsWith x n = true) :
    strStartsWith (x ++ y) n = true := by
  induction x generalizing n with
  | nil =>
    cases n with
    | nil => simp [strStartsWith]
    | cons a as => simp [strStartsWith] at h
  | cons c cs ih =>
    cases n with
    | nil => simp [strStartsWith]
    | cons a as =>
      simp only [strStartsWith, Bool.and_eq_true, decide_eq_true_eq] at h
      simp only [List.cons_append, strStartsWith, Bool.and_eq_true,
        decide_eq_true_eq]
      exact ⟨h.1, ih as h.2⟩

theorem strContainsSub_of_starts (s n : Str) (h : strStartsWith s n = true) :
    strContainsSub s n = true := by
  cases s with
  | nil =>
    cases n with
    | nil => rfl
    | cons a as => simp [strStartsWith] at h
  | cons c cs => simp [strContainsSub, h]

theorem splitOnChar_ne_nil (sep : Char) (s : Str) : splitOnChar sep s ≠ [] := by
  cases s with
  | nil => simp [splitOnChar]
  | cons c cs =>
    by_cases hc : c = sep
    · simp [splitOnChar, hc]
    · simp only [splitOnChar, hc, if_false]
      cases hsp : splitOnChar sep cs <;> simp

theorem splitOnChar_head_takeUntil (sep : Char) (s : Str) :
    ∃ rest, splitOnChar sep s = takeUntilChar sep s :: rest := by
  induction s with
  | nil => exact ⟨[], rfl⟩
  | cons c cs ih =>
    by_cases hc : c = sep
    · exact ⟨splitOnChar sep cs, by simp [splitOnChar, takeUntilChar, hc]⟩
    · obtain ⟨rest, hrest⟩ := ih
      refine ⟨rest, ?_⟩
      simp [splitOnChar, takeUntilChar, hc, hrest]

/-! Structural facts about the rendered lines. -/

theorem lineIsImages_nameLine (e : ImageEntry)
    (hg : goodField e.name) : lineIsImages (nameLine e) = false := by
  unfold lineIsImages
  rw [trimSpace_nameLine e hg]
  rw [show nameLine e = '-' :: ((" name: ").data ++ e.name) from rfl]
  rw [show imagesHeader = 'i' :: ("mages:").data from rfl]
  exact beq_cons_ne_head _ _ _ _ (by decide)

theorem lineIsImages_newNameLine (e : ImageEntry) (hg : goodField e.newName) :
    lineIsImages (newNameLine e) = false := by
  unfold lineIsImages
  rw [trimSpace_newNameLine e hg]
  rw [show (("newName: ").data ++ e.newName) =
    'n' :: (("ewName: ").data ++ e.newName) from rfl]
  rw [show imagesHeader = 'i' :: ("mages:").data from rfl]
  exact beq_cons_ne_head _ _ _ _ (by decide)

theorem lineIsImages_newTagLine (e : ImageEntry) (hg : goodField e.newTag) :
    lineIsImages (newTagLine e) = false := by
  unfold lineIsImages
  rw [trimSpace_newTagLine e hg]
  rw [show (("newTag: ").data ++ e.newTag) =
    'n' :: (("ewTag: ").data ++ e.newTag) from rfl]
  rw [show imagesHeader = 'i' :: ("mages:").data from rfl]
  exact beq_cons_ne_head _ _ _ _ (by decide)

theorem lineExits_nameLine (e : ImageEntry) (hg : goodField e.name) :
    lineExits (nameLine e) = false := by
  unfold lineExits
  rw [trimSpace_nameLine e hg]
  have hdash : strStartsWith (nameLine e) dashStr = true := by
    rw [show nameLine e = '-' :: ((" name: ").data ++ e.name) from rfl]
    rw [show dashStr = ['-'] from rfl]
    exact strStartsWith_cons_self _ _
  simp [hdash]

theorem lineExits_newNameLine (e : ImageEntry) :
    lineExits (newNameLine e) = false := by
  unfold lineExits
  have hsp : strStartsWith (newNameLine e) singleSpace = true := by
    rw [show newNameLine e = ' ' :: ((" newName: ").data ++ e.newName) from rfl]
    rw [show singleSpace = [' '] from rfl]
    exact strStartsWith_cons_self _ _
  simp [hsp]

theorem lineExits_newTagLine (e : ImageEntry) :
    lineExits (newTagLine e) = false := by
  unfold lineExits
  have hsp : strStartsWith (newTagLine e) singleSpace = true := by
    rw [show newTagLine e = ' ' :: ((" newTag: ").data ++ e.newTag) from rfl]
    rw [show singleSpace = [' '] from rfl]
    exact strStartsWith_cons_self _ _
  simp [hsp]

theorem lineDash_newNameLine (e : ImageEntry) (hg : goodField e.newName) :
    lineDash (newNameLine e) = false := by
  unfold lineDash
  rw [trimSpace_newNameLine e hg]
  rw [show (("newName: ").data ++ e.newName) =
    'n' :: (("ewName: ").data ++ e.newName) from rfl]
  rw [show dashStr = ['-'] from rfl]
  exact strStartsWith_cons_ne _ _ _ _ (by decide)

theorem lineHasNewTag_newTagLine (e : ImageEntry) (hg : goodField e.newTag) :
    lineHasNewTag (newTagLine e) = true := by
  unfold lineHasNewTag
  rw [trimSpace_newTagLine e hg]
  exact strContainsSub_of_starts _ _
    (strStartsWith_append_left _ _ _ (by decide))

theorem lineHasTwoParts_newTagLine (e : ImageEntry) (hg : goodField e.newTag) :
    lineHasTwoParts (newTagLine e) = true := by
  unfold lineHasTwoParts
  rw [trimSpace_newTagLine e hg]
  rw [show (("newTag: ").data ++ e.newTag) =
    ("newTag").data ++ ':' :: (' ' :: e.newTag) from rfl]
  rw [splitOnChar_append ':' _ _ (by decide)]
  have hne := splitOnChar_ne_nil ':' (' ' :: e.newTag)
  have hpos := List.length_pos.mpr hne
  simp only [List.length_cons, decide_eq_true_eq]
  omega

theorem lineTagValue_newTagLine (e : ImageEntry) (hg : goodField e.newTag) :
    lineTagValue (newTagLine e) = tagFieldValue e.newTag := by
  unfold lineTagValue
  rw [trimSpace_newTagLine e hg]
  rw [show (("newTag: ").data ++ e.newTag) =
    ("newTag").data ++ ':' :: (' ' :: e.newTag) from rfl]
  rw [splitOnChar_append ':' _ _ (by decide)]
  obtain ⟨rest, hrest⟩ := splitOnChar_head_takeUntil ':' (' ' :: e.newTag)
  rw [hrest]
  rw [show takeUntilChar ':' (' ' :: e.newTag) = ' ' :: takeUntilChar ':' e.newTag
    from by simp [takeUntilChar]]
  unfold tagFieldValue
  show trimChars isQuoteChar (trimSpace (' ' :: takeUntilChar ':' e.newTag)) =
    trimChars isQuoteChar (trimSpace (takeUntilChar ':' e.newTag))
  rw [trimSpace_cons_space]

/-! One-line step lemmas for the scanner loop. -/

theorem extractScan_step_skip_false (svc ol : Str) (rest : List Str)
    (h1 : lineIsImages ol = false) (h2 : lineExits ol = false)
    (h3 : lineNameMatch svc ol = false) (h4 : lineNewNameMatch svc ol = false) :
    extractScan svc (ol :: rest) true false = extractScan svc rest true false := by
  simp only [extractScan, h1, h2, h3, h4]
  simp

theorem extractScan_step_keep_true (svc ol : Str) (rest : List Str)
    (h1 : lineIsImages ol = false) (h2 : lineExits ol = false)
    (h3 : lineNameMatch svc ol = false) (h4 : lineNewNameMatch svc ol = false)
    (h5 : lineHasNewTag ol = false) (h6 : lineDash ol = false) :
    extractScan svc (ol :: rest) true true = extractScan svc rest true true := by
  simp only [extractScan, h1, h2, h3, h4, h5, h6]
  simp

theorem extractScan_step_name (svc ol : Str) (rest : List Str) (b : Bool)
    (h1 : lineIsImages ol = false) (h2 : lineExits ol = false)
    (h3 : lineNameMatch svc ol = true) :
    extractScan svc (ol :: rest) true b = extractScan svc rest true true := by
  simp only [extractScan, h1, h2, h3]
  simp

theorem extractScan_step_newname (svc ol : Str) (rest : List Str) (b : Bool)
    (h1 : lineIsImages ol = false) (h2 : lineExits ol = false)
    (h3 : lineNameMatch svc ol = false) (h4 : lineNewNameMatch svc ol = true) :
    extractScan svc (ol :: rest) true b = extractScan svc rest true true := by
  simp only [extractScan, h1, h2, h3, h4]
  simp

theorem extractScan_step_return (svc ol : Str) (rest : List Str)
    (h1 : lineIsImages ol = false) (h2 : lineExits ol = false)
    (h3 : lineNameMatch svc ol = false) (h4 : lineNewNameMatch svc ol = false)
    (h5 : lineHasNewTag ol = true) (h6 : lineHasTwoParts ol = true) :
    extractScan svc (ol :: rest) true true = lineTagValue ol := by
  simp only [extractScan, h1, h2, h3, h4, h5, h6]
  simp

/-! Entry-level behaviour of the scanner. -/

/-- The no-match conditions the scanner tests on a rendered line, for a given
target service name. -/
def lineNoMatch (svc ol : Str) : Prop :=
  lineNameMatch svc ol = false ∧ lineNewNameMatch svc ol = false

/-- An entry none of whose three lines matches the target service name. -/
def entryNoMatch (svc : Str) (e : ImageEntry) : Prop :=
  lineNoMatch svc (nameLine e) ∧ lineNoMatch svc (newNameLine e) ∧
    lineNoMatch svc (newTagLine e)

theorem extractScan_entry_skip (svc : Str) (e : ImageEntry) (rest : List Str)
    (hg : goodEntry e) (hnm : entryNoMatch svc e) :
    extractScan svc (entryLines e ++ rest) true false =
      extractScan svc rest true false := by
  obtain ⟨hg1, hg2, hg3⟩ := hg
  obtain ⟨hm1, hm2, hm3⟩ := hnm
  show extractScan svc (nameLine e :: newNameLine e :: newTagLine e :: rest)
      true false = extractScan svc rest true false
  rw [extractScan_step_skip_false svc _ _ (lineIsImages_nameLine e hg1)
    (lineExits_nameLine e hg1) hm1.1 hm1.2]
  rw [extractScan_step_skip_false svc _ _ (lineIsImages_newNameLine e hg2)
    (lineExits_newNameLine e) hm2.1 hm2.2]
  rw [extractScan_step_skip_false svc _ _ (lineIsImages_newTagLine e hg3)
    (lineExits_newTagLine e) hm3.1 hm3.2]

/-- The hit conditions for the target entry: either its name line matches,
or its name line is entirely silent and its newName line matches; and the
entry's remaining lines do not carry stray keys that would divert the
scanner. -/
def entryHit (svc : Str) (e : ImageEntry) : Prop :=
  (lineNameMatch svc (nameLine e) = true ∨
    (lineNoMatch svc (nameLine e) ∧
      lineNewNameMatch svc (newNameLine e) = true)) ∧
  lineHasNewTag (newNameLine e) = false ∧
  lineNoMatch svc (newTagLine e)

theorem extractScan_entry_hit (svc : Str) (e : ImageEntry) (rest : List Str)
    (hg : goodEntry e) (hh : entryHit svc e) :
    extractScan svc (entryLines e ++ rest) true false =
      tagFieldValue e.newTag := by
  obtain ⟨hg1, hg2, hg3⟩ := hg
  obtain ⟨hhit, hsafe, hnt⟩ := hh
  show extractScan svc (nameLine e :: newNameLine e :: newTagLine e :: rest)
      true false = tagFieldValue e.newTag
  have hstep2 : extractScan svc (newNameLine e :: newTagLine e :: rest)
      true true = extractScan svc (newTagLine e :: rest) true true := by
    by_cases ha : lineNameMatch svc (newNameLine e) = true
    · exact extractScan_step_name svc _ _ true
        (lineIsImages_newNameLine e hg2) (lineExits_newNameLine e) ha
    · have ha2 : lineNameMatch svc (newNameLine e) = false := by simpa using ha
      by_cases hb : lineNewNameMatch svc (newNameLine e) = true
      · exact extractScan_step_newname svc _ _ true
          (lineIsImages_newNameLine e hg2) (lineExits_newNameLine e) ha2 hb
      · have hb2 : lineNewNameMatch svc (newNameLine e) = false := by
          simpa using hb
        exact extractScan_step_keep_true svc _ _
          (lineIsImages_newNameLine e hg2) (lineExits_newNameLine e) ha2 hb2
          hsafe (lineDash_newNameLine e hg2)
  have hstep3 : extractScan svc (newTagLine e :: rest) true true =
      lineTagValue (newTagLine e) :=
    extractScan_step_return svc _ _ (lineIsImages_newTagLine e hg3)
      (lineExits_newTagLine e) hnt.1 hnt.2
      (lineHasNewTag_newTagLine e hg3) (lineHasTwoParts_newTagLine e hg3)
  rcases hhit with hname | ⟨hno, hnn⟩
  · rw [extractScan_step_name svc _ _ false (lineIsImages_nameLine e hg1)
      (lineExits_nameLine e hg1) hname]
    rw [hstep2, hstep3, lineTagValue_newTagLine e hg3]
  · rw [extractScan_step_skip_false svc _ _ (lineIsImages_nameLine e hg1)
      (lineExits_nameLine e hg1) hno.1 hno.2]
    have hstep2b : extractScan svc (newNameLine e :: newTagLine e :: rest)
        true false = extractScan svc (newTagLine e :: rest) true true := by
      by_cases ha : lineNameMatch svc (newNameLine e) = true
      · exact extractScan_step_name svc _ _ false
          (lineIsImages_newNameLine e hg2) (lineExits_newNameLine e) ha
      · exact extractScan_step_newname svc _ _ false
          (lineIsImages_newNameLine e hg2) (lineExits_newNameLine e)
          (by simpa using ha) hnn
    rw [hstep2b, hstep3, lineTagValue_newTagLine e hg3]

theorem extractScan_step_images (svc ol : Str) (rest : List Str) (b1 b2 : Bool)
    (h : lineIsImages ol = true) :
    extractScan svc (ol :: rest) b1 b2 = extractScan svc rest true b2 := by
  simp only [extractScan, h]
  simp

theorem newline_not_mem_entryLines (x : ImageEntry) (hg : goodEntry x) :
    ∀ l ∈ entryLines x, '\n' ∉ l := by
  intro l hl hmem
  obtain ⟨hg1, hg2, hg3⟩ := hg
  simp only [entryLines, List.mem_cons, List.not_mem_nil, or_false] at hl
  rcases hl with rfl | rfl | rfl
  · unfold nameLine at hmem
    rcases List.mem_append.mp hmem with h | h
    · exact absurd h (by decide)
    · exact hg1.2.1 h
  · unfold newNameLine at hmem
    rcases List.mem_append.mp hmem with h | h
    · exact absurd h (by decide)
    · exact hg2.2.1 h
  · unfold newTagLine at hmem
    rcases List.mem_append.mp hmem with h | h
    · exact absurd h (by decide)
    · exact hg3.2.1 h

theorem extractScan_entries_skip (svc : Str) (pre : List ImageEntry)
    (rest : List Str) (hg : ∀ x ∈ pre, goodEntry x)
    (hnm : ∀ x ∈ pre, entryNoMatch svc x) :
    extractScan svc (pre.flatMap entryLines ++ rest) true false =
      extractScan svc rest true false := by
  induction pre with
  | nil => rfl
  | cons x xs ih =>
    rw [show (x :: xs).flatMap entryLines =
      entryLines x ++ xs.flatMap entryLines from rfl]
    rw [List.append_assoc]
    rw [extractScan_entry_skip svc x _ (hg x (by simp)) (hnm x (by simp))]
    exact ih (fun y hy => hg y (by simp [hy])) (fun y hy => hnm y (by simp [hy]))

theorem takeUntilChar_of_not_mem (c : Char) (s : Str) (h : c ∉ s) :
    takeUntilChar c s = s := by
  induction s with
  | nil => rfl
  | cons x xs ih =>
    have hx : x ≠ c := fun hx => h (hx ▸ List.mem_cons_self x xs)
    simp [takeUntilChar, hx, ih (fun hm => h (List.mem_cons_of_mem x hm))]

theorem takeUntilChar_length_lt (c : Char) (s : Str) (h : c ∈ s) :
    (takeUntilChar c s).length < s.length := by
  induction s with
  | nil => cases h
  | cons x xs ih =>
    by_cases hx : x = c
    · simp [takeUntilChar, hx]
    · have hmem : c ∈ xs := by
        rcases List.mem_cons.mp h with h1 | h1
        · exact absurd h1.symm hx
        · exact h1
      simp only [takeUntilChar, hx, if_false, List.length_cons]
      exact Nat.succ_lt_succ (ih hmem)

/-- The scanner run over a canonically rendered `images:` block: earlier
entries that never match are skipped, and the first matching entry's
`newTag` field is returned as `tagFieldValue`. -/
theorem extract_renderImagesBlock (svc : Str) (pre : List ImageEntry)
    (e : ImageEntry) (post : List ImageEntry)
    (hgpre : ∀ x ∈ pre, goodEntry x) (hge : goodEntry e)
    (hgpost : ∀ x ∈ post, goodEntry x)
    (hnm : ∀ x ∈ pre, entryNoMatch svc x) (hh : entryHit svc e) :
    extractImageTagFromKustomization (renderImagesBlock (pre ++ e :: post))
      svc = tagFieldValue e.newTag := by
  unfold extractImageTagFromKustomization renderImagesBlock joinLines
  rw [splitOnChar_joinWith '\n' _ (by simp) ?hnl]
  case hnl =>
    intro l hl
    rcases List.mem_cons.mp hl with rfl | hl2
    · decide
    · obtain ⟨x, hx, hlx⟩ := List.mem_flatMap.mp hl2
      rcases List.mem_append.mp hx with h | h
      · exact newline_not_mem_entryLines x (hgpre x h) l hlx
      · rcases List.mem_cons.mp h with rfl | h2
        · exact newline_not_mem_entryLines x hge l hlx
        · exact newline_not_mem_entryLines x (hgpost x h2) l hlx
  rw [extractScan_step_images svc _ _ false false (by decide)]
  rw [show (pre ++ e :: post).flatMap entryLines =
    pre.flatMap entryLines ++ (entryLines e ++ post.flatMap entryLines) from by
      simp]
  rw [← List.append_assoc, List.append_assoc]
  rw [extractScan_entries_skip svc pre _ hgpre hnm]
  rw [extractScan_entry_hit svc e _ hge hh]

/-- C7 (amended): over a canonically rendered `images:` block in which no
line of an earlier entry matches the target service name S, and the first
matching entry matches through its `name` (or, failing that, `newName`)
line, extraction returns that entry's `newTag` value truncated at its first
colon, whitespace-trimmed and stripped of surrounding quote characters; when
the value contains no colon this is exactly the quote-stripped value. -/
theorem c7_first_matching_entry_tag (svc : Str) (pre : List ImageEntry)
    (e : ImageEntry) (post : List ImageEntry)
    (hgpre : ∀ x ∈ pre, goodEntry x) (hge : goodEntry e)
    (hgpost : ∀ x ∈ post, goodEntry x)
    (hnm : ∀ x ∈ pre, entryNoMatch svc x) (hh : entryHit svc e) :
    extractImageTagFromKustomization (renderImagesBlock (pre ++ e :: post))
        svc = trimChars isQuoteChar (trimSpace (takeUntilChar ':' e.newTag)) ∧
    (':' ∉ e.newTag →
      extractImageTagFromKustomization (renderImagesBlock (pre ++ e :: post))
        svc = trimChars isQuoteChar (trimSpace e.newTag)) := by
  have hmain := extract_renderImagesBlock svc pre e post hgpre hge hgpost hnm hh
  unfold tagFieldValue at hmain
  refine ⟨hmain, fun hnc => ?_⟩
  rw [hmain, takeUntilChar_of_not_mem ':' e.newTag hnc]

theorem c7_first_matching_entry_tag_witness :
    extractImageTagFromKustomization
        (renderImagesBlock
          ([] ++ (⟨("payment-api").data, ("registry/payment-api").data,
            ("\"v1.2.3\"").data⟩ : ImageEntry) :: []))
        (("payment-api").data) =
      trimChars isQuoteChar (trimSpace (("\"v1.2.3\"").data)) ∧
    trimChars isQuoteChar (trimSpace (("\"v1.2.3\"").data)) = ("v1.2.3").data :=
  ⟨(c7_first_matching_entry_tag (("payment-api").data) []
      ⟨("payment-api").data, ("registry/payment-api").data,
        ("\"v1.2.3\"").data⟩ []
      (by intro x hx; cases hx) (by refine ⟨⟨?_, ?_, ?_⟩, ⟨?_, ?_, ?_⟩, ?_, ?_, ?_⟩ <;> decide)
      (by intro x hx; cases hx) (by intro x hx; cases hx)
      (by refine ⟨Or.inl ?_, ?_, ?_, ?_⟩ <;> decide)).2 (by decide),
   by decide⟩

/-- C10: for a matched entry whose `newTag` value contains a colon, the
scanner splits the line on every colon and keeps only the field after the
first one, so the returned tag is the portion of the value before its first
colon (trimmed of whitespace and quotes), strictly shorter than the full
value. -/
theorem c10_newTag_colon_truncated (svc : Str) (e : ImageEntry)
    (hge : goodEntry e) (hh : entryHit svc e) (hcolon : ':' ∈ e.newTag) :
    extractImageTagFromKustomization (renderImagesBlock [e]) svc =
      trimChars isQuoteChar (trimSpace (takeUntilChar ':' e.newTag)) ∧
    (takeUntilChar ':' e.newTag).length < e.newTag.length := by
  have hmain := extract_renderImagesBlock svc [] e []
    (by intro x hx; cases hx) hge (by intro x hx; cases hx)
    (by intro x hx; cases hx) hh
  unfold tagFieldValue at hmain
  exact ⟨hmain, takeUntilChar_length_lt ':' e.newTag hcolon⟩

theorem c10_newTag_colon_truncated_witness :
    extractImageTagFromKustomization
        (renderImagesBlock
          [⟨("payment-api").data, ("reg/payment-api").data,
            ("sha256:abcd").data⟩])
        (("payment-api").data) =
      trimChars isQuoteChar (trimSpace (takeUntilChar ':'
        (("sha256:abcd").data))) ∧
    (takeUntilChar ':' (("sha256:abcd").data)).length <
      (("sha256:abcd").data).length :=
  c10_newTag_colon_truncated (("payment-api").data)
    ⟨("payment-api").data, ("reg/payment-api").data, ("sha256:abcd").data⟩
    (by refine ⟨⟨?_, ?_, ?_⟩, ⟨?_, ?_, ?_⟩, ?_, ?_, ?_⟩ <;> decide)
    (by refine ⟨Or.inl ?_, ?_, ?_, ?_⟩ <;> decide) (by decide)

/-- C7 counterexample: an entry whose `name` contains the target service
name and whose `newTag` value is `v1:2`; the claim says the value is
returned with quotes stripped, but the scanner returns only `v1`. -/
theorem c7_counterexample :
    extractImageTagFromKustomization
        (renderImagesBlock
          [⟨("payment-api").data, ("reg/payment-api").data, ("v1:2").data⟩])
        (("payment-api").data) = ("v1").data ∧
    ("v1").data ≠ ("v1:2").data := by
  refine ⟨by decide, by decide⟩

/-! ## C5: microservice reconciliation -/

theorem find?_key_self {α β : Type} [DecidableEq β] (f : α → β) (l : List α)
    (a : α) (hnd : (l.map f).Nodup) (ha : a ∈ l) :
    l.find? (fun x => f x = f a) = some a := by
  induction l with
  | nil => cases ha
  | cons b bs ih =>
    rw [List.map_cons, List.nodup_cons] at hnd
    rcases List.mem_cons.mp ha with rfl | ha2
    · exact List.find?_cons_of_pos _ (by simp)
    · have hne : ¬(f b = f a) := fun h =>
        hnd.1 (h ▸ List.mem_map_of_mem f ha2)
      rw [List.find?_cons_of_neg _ (by simpa using hne)]
      exact ih hnd.2 ha2

theorem findByKey_mem_key {rows : List MsRow} {k : Str} {e : MsRow}
    (h : findByKey rows k = some e) : e ∈ rows ∧ msRowKey e = k := by
  refine ⟨List.mem_of_find?_eq_some h, ?_⟩
  have := List.find?_some h
  simpa using this

theorem findByKey_self (tbl : List MsRow) (r : MsRow)
    (hnd : (tbl.map msRowKey).Nodup) (hr : r ∈ tbl) :
    findByKey tbl (msRowKey r) = some r :=
  find?_key_self msRowKey tbl r hnd hr

theorem msRow_id_inj {tbl : List MsRow} (hids : (tbl.map (fun r => r.id)).Nodup)
    {a b : MsRow} (ha : a ∈ tbl) (hb : b ∈ tbl) (h : a.id = b.id) : a = b :=
  List.inj_on_of_nodup_map hids ha hb h

theorem applyUpdAll_nil (ex : List MsRow) (now : Nat) (r : MsRow) :
    applyUpdAll ex now [] r = r := rfl

theorem applyUpdAll_cons (ex : List MsRow) (now : Nat) (i : MsInput)
    (is : List MsInput) (r : MsRow) :
    applyUpdAll ex now (i :: is) r =
      applyUpdAll ex now is (applyUpdStep ex now r i) := rfl

theorem applyUpdAll_of_id_ge (ex : List MsRow) (now n : Nat)
    (input : List MsInput) (r : MsRow) (hlt : ∀ e ∈ ex, e.id < n)
    (hr : n ≤ r.id) :
    applyUpdAll ex now input r = r := by
  induction input with
  | nil => rfl
  | cons i is ih =>
    rw [applyUpdAll_cons]
    have hstep : applyUpdStep ex now r i = r := by
      unfold applyUpdStep
      cases hf : findByKey ex (msInputKey i) with
      | none => rfl
      | some e =>
        have he := (findByKey_mem_key hf).1
        have : r.id ≠ e.id := by
          have := hlt e he
          omega
        simp [this]
    rw [hstep]
    exact ih

theorem applyUpdAll_untouched (ex : List MsRow) (now : Nat)
    (input : List MsInput) (r : MsRow)
    (hids : (ex.map (fun x => x.id)).Nodup) (hr : r ∈ ex)
    (hni : ∀ i ∈ input, msInputKey i ≠ msRowKey r) (r2 : MsRow)
    (hid : r2.id = r.id) :
    applyUpdAll ex now input r2 = r2 := by
  induction input with
  | nil => rfl
  | cons i is ih =>
    rw [applyUpdAll_cons]
    have hstep : applyUpdStep ex now r2 i = r2 := by
      unfold applyUpdStep
      cases hf : findByKey ex (msInputKey i) with
      | none => rfl
      | some e =>
        obtain ⟨he, hek⟩ := findByKey_mem_key hf
        have hne : r2.id ≠ e.id := by
          intro hide
          have : e = r := msRow_id_inj hids he hr (by rw [← hide, hid])
          exact hni i (by simp) (by rw [← hek, this])
        simp [hne]
    rw [hstep]
    exact ih (fun j hj => hni j (by simp [hj]))

theorem applyUpdAll_unmatched (ex : List MsRow) (now : Nat)
    (input : List MsInput) (r : MsRow)
    (hids : (ex.map (fun x => x.id)).Nodup) (hr : r ∈ ex)
    (hf : input.find? (fun i => msInputKey i = msRowKey r) = none) :
    applyUpdAll ex now input r = r :=
  applyUpdAll_untouched ex now input r hids hr
    (fun i hi => by
      have := List.find?_eq_none.mp hf i hi
      simpa using this) r rfl

theorem applyUpdAll_matched (ex : List MsRow) (now : Nat)
    (input : List MsInput) (r : MsRow) (i0 : MsInput)
    (hkeys : (ex.map msRowKey).Nodup)
    (hids : (ex.map (fun x => x.id)).Nodup)
    (hin : (input.map msInputKey).Nodup) (hr : r ∈ ex)
    (hf : input.find? (fun i => msInputKey i = msRowKey r) = some i0) :
    applyUpdAll ex now input r = msUpdate i0.description now r := by
  induction input with
  | nil => cases hf
  | cons i is ih =>
    rw [List.map_cons, List.nodup_cons] at hin
    by_cases hp : msInputKey i = msRowKey r
    · rw [List.find?_cons_of_pos _ (by simpa using hp)] at hf
      have hi0 : i0 = i := (Option.some.inj hf).symm
      subst hi0
      rw [applyUpdAll_cons]
      have hstep : applyUpdStep ex now r i0 = msUpdate i0.description now r := by
        unfold applyUpdStep
        rw [hp, findByKey_self ex r hkeys hr]
        simp
      rw [hstep]
      exact applyUpdAll_untouched ex now is r hids hr
        (fun j hj hkey => hin.1 (by
          rw [← hp] at hkey
          exact hkey ▸ List.mem_map_of_mem msInputKey hj)) _ rfl
    · rw [List.find?_cons_of_neg _ (by simpa using hp)] at hf
      rw [applyUpdAll_cons]
      have hstep : applyUpdStep ex now r i = r := by
        unfold applyUpdStep
        cases hfk : findByKey ex (msInputKey i) with
        | none => rfl
        | some e =>
          obtain ⟨he, hek⟩ := findByKey_mem_key hfk
          have hne : r.id ≠ e.id := by
            intro hide
            have : r = e := msRow_id_inj hids hr he hide
            exact hp (by rw [← hek, this])
          simp [hne]
      rw [hstep]
      exact ih hin.2 hf

theorem applyInputs_cons_some (ex : List MsRow) (now : Nat) (i : MsInput)
    (is : List MsInput) (tbl : List MsRow) (n : Nat) (e : MsRow)
    (hf : findByKey ex (msInputKey i) = some e) :
    applyInputs ex now (i :: is) tbl n =
      applyInputs ex now is
        (tbl.map (fun r => if r.id = e.id then msUpdate i.description now r else r))
        n := by
  conv_lhs => unfold applyInputs
  rw [hf]

theorem applyInputs_cons_none (ex : List MsRow) (now : Nat) (i : MsInput)
    (is : List MsInput) (tbl : List MsRow) (n : Nat)
    (hf : findByKey ex (msInputKey i) = none) :
    applyInputs ex now (i :: is) tbl n =
      applyInputs ex now is (tbl ++ [msInsertRow n i now]) (n + 1) := by
  conv_lhs => unfold applyInputs
  rw [hf]

theorem freshRows_cons_some (ex : List MsRow) (now : Nat) (i : MsInput)
    (is : List MsInput) (n : Nat) (e : MsRow)
    (hf : findByKey ex (msInputKey i) = some e) :
    freshRows ex now (i :: is) n = freshRows ex now is n := by
  conv_lhs => unfold freshRows
  rw [hf]

theorem freshRows_cons_none (ex : List MsRow) (now : Nat) (i : MsInput)
    (is : List MsInput) (n : Nat)
    (hf : findByKey ex (msInputKey i) = none) :
    freshRows ex now (i :: is) n =
      msInsertRow n i now :: freshRows ex now is (n + 1) := by
  conv_lhs => unfold freshRows
  rw [hf]

theorem unmatchedCount_cons_some (ex : List MsRow) (i : MsInput)
    (is : List MsInput) (e : MsRow)
    (hf : findByKey ex (msInputKey i) = some e) :
    unmatchedCount ex (i :: is) = unmatchedCount ex is := by
  unfold unmatchedCount
  rw [List.filter_cons]
  simp [hf]

theorem unmatchedCount_cons_none (ex : List MsRow) (i : MsInput)
    (is : List MsInput)
    (hf : findByKey ex (msInputKey i) = none) :
    unmatchedCount ex (i :: is) = unmatchedCount ex is + 1 := by
  unfold unmatchedCount
  rw [List.filter_cons]
  simp [hf, Nat.add_comm]

theorem applyInputs_spec (ex : List MsRow) (now : Nat) :
    ∀ (input : List MsInput) (tbl : List MsRow) (n : Nat),
      (∀ e ∈ ex, e.id < n) →
      applyInputs ex now input tbl n =
        (tbl.map (applyUpdAll ex now input) ++ freshRows ex now input n,
          n + unmatchedCount ex input) := by
  intro input
  induction input with
  | nil =>
    intro tbl n hlt
    show (tbl, n) = (tbl.map (applyUpdAll ex now []) ++ freshRows ex now [] n,
      n + unmatchedCount ex [])
    have hmap : tbl.map (applyUpdAll ex now []) = tbl := by
      rw [List.map_congr_left (fun r _ => applyUpdAll_nil ex now r)]
      exact List.map_id tbl
    rw [hmap]
    simp [freshRows, unmatchedCount]
  | cons i is ih =>
    intro tbl n hlt
    cases hf : findByKey ex (msInputKey i) with
    | some e =>
      rw [applyInputs_cons_some ex now i is tbl n e hf, ih _ n hlt,
        List.map_map, freshRows_cons_some ex now i is n e hf,
        unmatchedCount_cons_some ex i is e hf]
      have hmap : tbl.map (applyUpdAll ex now is ∘
          (fun r => if r.id = e.id then msUpdate i.description now r else r)) =
          tbl.map (applyUpdAll ex now (i :: is)) := by
        apply List.map_congr_left
        intro r _
        rw [Function.comp_apply, applyUpdAll_cons]
        have hstep : applyUpdStep ex now r i =
            (if r.id = e.id then msUpdate i.description now r else r) := by
          unfold applyUpdStep
          rw [hf]
        rw [hstep]
      rw [hmap]
    | none =>
      rw [applyInputs_cons_none ex now i is tbl n hf,
        ih _ (n + 1) (fun x hx => Nat.lt_succ_of_lt (hlt x hx)),
        List.map_append]
      have hrow : (([msInsertRow n i now] : List MsRow).map
          (applyUpdAll ex now is)) = [msInsertRow n i now] := by
        rw [List.map_cons, List.map_nil]
        rw [applyUpdAll_of_id_ge ex now n is (msInsertRow n i now) hlt
          (by simp [msInsertRow])]
      rw [hrow, freshRows_cons_none ex now i is n hf,
        unmatchedCount_cons_none ex i is hf]
      have hmap : tbl.map (applyUpdAll ex now is) =
          tbl.map (applyUpdAll ex now (i :: is)) := by
        apply List.map_congr_left
        intro r _
        rw [applyUpdAll_cons]
        have hstep : applyUpdStep ex now r i = r := by
          unfold applyUpdStep
          rw [hf]
        rw [hstep]
      rw [hmap]
      rw [List.append_assoc, List.singleton_append]
      have hcount : n + 1 + unmatchedCount ex is =
          n + (unmatchedCount ex is + 1) := by omega
      rw [hcount]

theorem fresh_mem (ex : List MsRow) (now : Nat) :
    ∀ (input : List MsInput) (n : Nat) (r : MsRow),
      r ∈ freshRows ex now input n →
      ∃ i ∈ input, findByKey ex (msInputKey i) = none ∧ r.name = i.name ∧
        r.path = i.path ∧ r.description = i.description ∧ r.createdAt = now ∧
        r.updatedAt = now ∧ n ≤ r.id := by
  intro input
  induction input with
  | nil => intro n r hr; cases hr
  | cons i is ih =>
    intro n r hr
    cases hf : findByKey ex (msInputKey i) with
    | some e =>
      rw [freshRows_cons_some ex now i is n e hf] at hr
      obtain ⟨j, hj, rest⟩ := ih n r hr
      exact ⟨j, by simp [hj], rest⟩
    | none =>
      rw [freshRows_cons_none ex now i is n hf] at hr
      rcases List.mem_cons.mp hr with rfl | hr2
      · exact ⟨i, by simp, hf, rfl, rfl, rfl, rfl, rfl, le_refl n⟩
      · obtain ⟨j, hj, hjf, h1, h2, h3, h4, h5, h6⟩ := ih (n + 1) r hr2
        exact ⟨j, by simp [hj], hjf, h1, h2, h3, h4, h5, by omega⟩

theorem fresh_intro (ex : List MsRow) (now : Nat) :
    ∀ (input : List MsInput) (n : Nat) (i : MsInput), i ∈ input →
      findByKey ex (msInputKey i) = none →
      ∃ r ∈ freshRows ex now input n, r.name = i.name ∧ r.path = i.path ∧
        r.description = i.description ∧ n ≤ r.id := by
  intro input
  induction input with
  | nil => intro n i hi; cases hi
  | cons j is ih =>
    intro n i hi hfi
    rcases List.mem_cons.mp hi with rfl | hi2
    · rw [freshRows_cons_none ex now i is n hfi]
      exact ⟨msInsertRow n i now, by simp, rfl, rfl, rfl, le_refl n⟩
    · cases hf : findByKey ex (msInputKey j) with
      | some e =>
        rw [freshRows_cons_some ex now j is n e hf]
        exact ih n i hi2 hfi
      | none =>
        rw [freshRows_cons_none ex now j is n hf]
        obtain ⟨r, hr, h1, h2, h3, h4⟩ := ih (n + 1) i hi2 hfi
        exact ⟨r, by simp [hr], h1, h2, h3, by omega⟩

theorem fresh_map_key (ex : List MsRow) (now : Nat) :
    ∀ (input : List MsInput) (n : Nat),
      (freshRows ex now input n).map msRowKey =
        (input.filter (fun i => (findByKey ex (msInputKey i)).isNone)).map
          msInputKey := by
  intro input
  induction input with
  | nil => intro n; rfl
  | cons i is ih =>
    intro n
    cases hf : findByKey ex (msInputKey i) with
    | some e =>
      rw [freshRows_cons_some ex now i is n e hf, List.filter_cons]
      simp only [hf, Option.isNone_some, if_false]
      exact ih n
    | none =>
      rw [freshRows_cons_none ex now i is n hf, List.filter_cons]
      simp only [hf, Option.isNone_none, if_true]
      rw [List.map_cons, List.map_cons, ih (n + 1)]
      rfl

theorem fresh_id_lb (ex : List MsRow) (now : Nat) :
    ∀ (input : List MsInput) (n : Nat) (r : MsRow),
      r ∈ freshRows ex now input n → n ≤ r.id := by
  intro input n r hr
  obtain ⟨_, _, _, _, _, _, _, _, h⟩ := fresh_mem ex now input n r hr
  exact h

theorem fresh_id_ub (ex : List MsRow) (now : Nat) :
    ∀ (input : List MsInput) (n : Nat) (r : MsRow),
      r ∈ freshRows ex now input n →
      r.id < n + unmatchedCount ex input := by
  intro input
  induction input with
  | nil => intro n r hr; cases hr
  | cons i is ih =>
    intro n r hr
    cases hf : findByKey ex (msInputKey i) with
    | some e =>
      rw [freshRows_cons_some ex now i is n e hf] at hr
      rw [unmatchedCount_cons_some ex i is e hf]
      exact ih n r hr
    | none =>
      rw [freshRows_cons_none ex now i is n hf] at hr
      rw [unmatchedCount_cons_none ex i is hf]
      rcases List.mem_cons.mp hr with rfl | hr2
      · show n < n + (unmatchedCount ex is + 1)
        omega
      · have := ih (n + 1) r hr2
        omega

theorem fresh_ids_nodup (ex : List MsRow) (now : Nat) :
    ∀ (input : List MsInput) (n : Nat),
      ((freshRows ex now input n).map (fun r => r.id)).Nodup := by
  intro input
  induction input with
  | nil => intro n; simp [freshRows]
  | cons i is ih =>
    intro n
    cases hf : findByKey ex (msInputKey i) with
    | some e =>
      rw [freshRows_cons_some ex now i is n e hf]
      exact ih n
    | none =>
      rw [freshRows_cons_none ex now i is n hf]
      rw [List.map_cons, List.nodup_cons]
      refine ⟨?_, ih (n + 1)⟩
      intro hmem
      obtain ⟨r, hr, hrid⟩ := List.mem_map.mp hmem
      have := fresh_id_lb ex now is (n + 1) r hr
      rw [hrid] at this
      simp [msInsertRow] at this

theorem filter_map_eq_filterMap {α β : Type} (A : α → β) (p : β → Bool)
    (g : α → Option β) (l : List α)
    (h : ∀ r ∈ l, (p (A r) = true ∧ g r = some (A r)) ∨
      (p (A r) = false ∧ g r = none)) :
    (l.map A).filter p = l.filterMap g := by
  induction l with
  | nil => rfl
  | cons x xs ih =>
    rw [List.map_cons, List.filter_cons, List.filterMap_cons]
    rcases h x (by simp) with ⟨h1, h2⟩ | ⟨h1, h2⟩
    · rw [h1, h2, if_pos rfl]
      rw [ih (fun r hr => h r (by simp [hr]))]
    · rw [h1, h2]
      simp only [Bool.false_eq_true, if_false]
      rw [ih (fun r hr => h r (by simp [hr]))]

theorem updated_mem_of (tbl : List MsRow) (now : Nat) (input : List MsInput)
    (r2 : MsRow) (h : r2 ∈ updatedOldRows tbl now input) :
    ∃ r ∈ tbl, ∃ i, input.find? (fun x => msInputKey x = msRowKey r) = some i ∧
      r2 = msUpdate i.description now r := by
  obtain ⟨r, hr, hro⟩ := List.mem_filterMap.mp h
  cases hfind : input.find? (fun i => msInputKey i = msRowKey r) with
  | none => rw [hfind] at hro; cases hro
  | some i =>
    rw [hfind] at hro
    simp only [Option.map_some'] at hro
    exact ⟨r, hr, i, hfind, (Option.some.inj hro).symm⟩

theorem updated_mem_intro (tbl : List MsRow) (now : Nat) (input : List MsInput)
    (r : MsRow) (i : MsInput) (hr : r ∈ tbl)
    (hfind : input.find? (fun x => msInputKey x = msRowKey r) = some i) :
    msUpdate i.description now r ∈ updatedOldRows tbl now input := by
  apply List.mem_filterMap.mpr
  exact ⟨r, hr, by rw [hfind]; rfl⟩

theorem updated_map_key (tbl : List MsRow) (now : Nat) (input : List MsInput) :
    (updatedOldRows tbl now input).map msRowKey =
      (tbl.filter (fun r =>
        (input.find? (fun i => msInputKey i = msRowKey r)).isSome)).map
        msRowKey := by
  induction tbl with
  | nil => rfl
  | cons r rs ih =>
    unfold updatedOldRows at *
    rw [List.filterMap_cons, List.filter_cons]
    cases hf : input.find? (fun i => msInputKey i = msRowKey r) with
    | none =>
      simp only [Option.map_none', Option.isSome_none, Bool.false_eq_true,
        if_false]
      exact ih
    | some i =>
      simp only [Option.map_some', Option.isSome_some, if_true]
      rw [List.map_cons, List.map_cons, ih]
      rfl

theorem updated_map_id (tbl : List MsRow) (now : Nat) (input : List MsInput) :
    (updatedOldRows tbl now input).map (fun r => r.id) =
      (tbl.filter (fun r =>
        (input.find? (fun i => msInputKey i = msRowKey r)).isSome)).map
        (fun r => r.id) := by
  induction tbl with
  | nil => rfl
  | cons r rs ih =>
    unfold updatedOldRows at *
    rw [List.filterMap_cons, List.filter_cons]
    cases hf : input.find? (fun i => msInputKey i = msRowKey r) with
    | none =>
      simp only [Option.map_none', Option.isSome_none, Bool.false_eq_true,
        if_false]
      exact ih
    | some i =>
      simp only [Option.map_some', Option.isSome_some, if_true]
      rw [List.map_cons, List.map_cons, ih]
      rfl

theorem msUpdate_id (d : Str) (t : Nat) (r : MsRow) :
    (msUpdate d t r).id = r.id := rfl

theorem msUpdate_key (d : Str) (t : Nat) (r : MsRow) :
    msRowKey (msUpdate d t r) = msRowKey r := rfl

theorem upsertServicesPreserveID_spec (tbl : List MsRow) (nextId now : Nat)
    (input : List MsInput) (hok : msTableOK tbl nextId)
    (hin : (input.map msInputKey).Nodup) :
    upsertServicesPreserveID tbl nextId now input =
      (reconcileSpec tbl nextId now input,
        nextId + unmatchedCount tbl input) := by
  obtain ⟨hkeys, hids, hlt⟩ := hok
  unfold upsertServicesPreserveID
  rw [applyInputs_spec tbl now input tbl nextId hlt]
  simp only []
  unfold deleteUnprocessed reconcileSpec
  rw [List.filter_append]
  have hpartA : ((tbl.map (applyUpdAll tbl now input)).filter (fun r =>
      !(tbl.any (fun e => e.id == r.id &&
        !((input.map msInputKey).contains (msRowKey e)))))) =
      updatedOldRows tbl now input := by
    unfold updatedOldRows
    apply filter_map_eq_filterMap
    intro r hr
    cases hfind : input.find? (fun i => msInputKey i = msRowKey r) with
    | some i0 =>
      left
      have hA : applyUpdAll tbl now input r = msUpdate i0.description now r :=
        applyUpdAll_matched tbl now input r i0 hkeys hids hin hr hfind
      have hkeymem : msRowKey r ∈ input.map msInputKey := by
        have hp := List.find?_some hfind
        have hm := List.mem_of_find?_eq_some hfind
        simp only [decide_eq_true_eq] at hp
        exact hp ▸ List.mem_map_of_mem msInputKey hm
      constructor
      · rw [hA]
        have hany : tbl.any (fun e => e.id == (msUpdate i0.description now r).id &&
            !((input.map msInputKey).contains (msRowKey e))) = false := by
          rw [List.any_eq_false]
          intro e he
          rw [msUpdate_id]
          by_cases hid : e.id = r.id
          · have : e = r := msRow_id_inj hids he hr hid
            subst this
            simp [hkeymem, hid]
          · simp [hid]
        rw [hany]
        rfl
      · rw [hA]
        rfl
    | none =>
      right
      have hA : applyUpdAll tbl now input r = r :=
        applyUpdAll_unmatched tbl now input r hids hr hfind
      have hkeynm : msRowKey r ∉ input.map msInputKey := by
        intro hmem
        obtain ⟨i, hi, hik⟩ := List.mem_map.mp hmem
        have := List.find?_eq_none.mp hfind i hi
        simp only [decide_eq_true_eq] at this
        exact this hik
      constructor
      · rw [hA]
        have hany : tbl.any (fun e => e.id == r.id &&
            !((input.map msInputKey).contains (msRowKey e))) = true := by
          rw [List.any_eq_true]
          exact ⟨r, hr, by simp [hkeynm]⟩
        rw [hany]
        rfl
      · rfl
  have hpartB : ((freshRows tbl now input nextId).filter (fun r =>
      !(tbl.any (fun e => e.id == r.id &&
        !((input.map msInputKey).contains (msRowKey e)))))) =
      freshRows tbl now input nextId := by
    rw [List.filter_eq_self]
    intro x hx
    have hxid : nextId ≤ x.id := fresh_id_lb tbl now input nextId x hx
    have hany : tbl.any (fun e => e.id == x.id &&
        !((input.map msInputKey).contains (msRowKey e))) = false := by
      rw [List.any_eq_false]
      intro e he
      have : e.id ≠ x.id := by
        have := hlt e he
        omega
      simp [this]
    rw [hany]
    rfl
  rw [hpartA, hpartB]

theorem msUpdate_self (d : Str) (t : Nat) (r : MsRow)
    (hd : r.description = d) (ht : r.updatedAt = t) : msUpdate d t r = r := by
  cases r
  unfold msUpdate
  simp only at hd ht
  simp [hd, ht]

theorem filterMap_eq_map_of {α β : Type} (g : α → Option β) (f : α → β)
    (l : List α) (h : ∀ a ∈ l, g a = some (f a)) : l.filterMap g = l.map f := by
  induction l with
  | nil => rfl
  | cons x xs ih =>
    rw [List.filterMap_cons, h x (by simp), List.map_cons]
    rw [ih (fun a ha => h a (by simp [ha]))]

theorem reconcile_keys_nodup (tbl : List MsRow) (nextId now : Nat)
    (input : List MsInput) (hkeys : (tbl.map msRowKey).Nodup)
    (hin : (input.map msInputKey).Nodup) :
    ((reconcileSpec tbl nextId now input).map msRowKey).Nodup := by
  unfold reconcileSpec
  rw [List.map_append, List.nodup_append]
  refine ⟨?_, ?_, ?_⟩
  · rw [updated_map_key]
    exact ((List.filter_sublist tbl).map msRowKey).nodup hkeys
  · rw [fresh_map_key]
    exact ((List.filter_sublist input).map msInputKey).nodup hin
  · intro k hk
    rw [updated_map_key] at hk
    obtain ⟨r, hrf, hrk⟩ := List.mem_map.mp hk
    have hrtbl : r ∈ tbl := List.mem_of_mem_filter hrf
    rw [fresh_map_key]
    intro hk2
    obtain ⟨i, hif, hik⟩ := List.mem_map.mp hk2
    have hinone : (findByKey tbl (msInputKey i)).isNone = true := by
      have := List.of_mem_filter hif
      simpa using this
    have hfnone : findByKey tbl (msInputKey i) = none :=
      Option.eq_none_of_isNone hinone
    have := List.find?_eq_none.mp hfnone r hrtbl
    simp only [decide_eq_true_eq] at this
    exact this (by rw [hrk, hik])

theorem reconcile_ids_nodup (tbl : List MsRow) (nextId now : Nat)
    (input : List MsInput) (hids : (tbl.map (fun r => r.id)).Nodup)
    (hlt : ∀ r ∈ tbl, r.id < nextId) :
    ((reconcileSpec tbl nextId now input).map (fun r => r.id)).Nodup := by
  unfold reconcileSpec
  rw [List.map_append, List.nodup_append]
  refine ⟨?_, fresh_ids_nodup tbl now input nextId, ?_⟩
  · rw [updated_map_id]
    exact ((List.filter_sublist tbl).map (fun r => r.id)).nodup hids
  · intro k hk
    rw [updated_map_id] at hk
    obtain ⟨r, hrf, hrk⟩ := List.mem_map.mp hk
    have hrtbl : r ∈ tbl := List.mem_of_mem_filter hrf
    intro hk2
    obtain ⟨x, hxf, hxk⟩ := List.mem_map.mp hk2
    have h1 := fresh_id_lb tbl now input nextId x hxf
    have h2 := hlt r hrtbl
    rw [hrk] at h2
    rw [hxk] at h1
    omega

theorem reconcile_ids_lt (tbl : List MsRow) (nextId now : Nat)
    (input : List MsInput) (hlt : ∀ r ∈ tbl, r.id < nextId) :
    ∀ r ∈ reconcileSpec tbl nextId now input,
      r.id < nextId + unmatchedCount tbl input := by
  intro r hr
  unfold reconcileSpec at hr
  rcases List.mem_append.mp hr with h | h
  · obtain ⟨r0, hr0, i, _, hre⟩ := updated_mem_of tbl now input r h
    have := hlt r0 hr0
    rw [hre, msUpdate_id]
    omega
  · exact fresh_id_ub tbl now input nextId r h

theorem reconcile_tableOK (tbl : List MsRow) (nextId now : Nat)
    (input : List MsInput) (hok : msTableOK tbl nextId)
    (hin : (input.map msInputKey).Nodup) :
    msTableOK (reconcileSpec tbl nextId now input)
      (nextId + unmatchedCount tbl input) :=
  ⟨reconcile_keys_nodup tbl nextId now input hok.1 hin,
   reconcile_ids_nodup tbl nextId now input hok.2.1 hok.2.2,
   reconcile_ids_lt tbl nextId now input hok.2.2⟩

theorem reconcile_key_complete (tbl : List MsRow) (nextId now : Nat)
    (input : List MsInput) (hin : (input.map msInputKey).Nodup) :
    ∀ i ∈ input, ∃ r ∈ reconcileSpec tbl nextId now input,
      msRowKey r = msInputKey i := by
  intro i hi
  cases hf : findByKey tbl (msInputKey i) with
  | some e =>
    obtain ⟨he, hek⟩ := findByKey_mem_key hf
    have hfind : input.find? (fun x => msInputKey x = msRowKey e) = some i := by
      rw [hek]
      exact find?_key_self msInputKey input i hin hi
    refine ⟨msUpdate i.description now e, ?_, by rw [msUpdate_key, hek]⟩
    unfold reconcileSpec
    exact List.mem_append.mpr (Or.inl (updated_mem_intro tbl now input e i he hfind))
  | none =>
    obtain ⟨r, hr, h1, h2, _, _⟩ := fresh_intro tbl now input nextId i hi hf
    refine ⟨r, ?_, ?_⟩
    · unfold reconcileSpec
      exact List.mem_append.mpr (Or.inr hr)
    · show msKey r.name r.path = msKey i.name i.path
      rw [h1, h2]

theorem reconcile_mem_char (tbl : List MsRow) (nextId now : Nat)
    (input : List MsInput) (hin : (input.map msInputKey).Nodup) :
    ∀ r2 ∈ reconcileSpec tbl nextId now input,
      ∃ i, input.find? (fun x => msInputKey x = msRowKey r2) = some i ∧
        r2.description = i.description ∧ r2.updatedAt = now := by
  intro r2 hr2
  unfold reconcileSpec at hr2
  rcases List.mem_append.mp hr2 with h | h
  · obtain ⟨r, hr, i, hfind, hre⟩ := updated_mem_of tbl now input r2 h
    refine ⟨i, ?_, by rw [hre]; rfl, by rw [hre]; rfl⟩
    rw [hre, msUpdate_key]
    exact hfind
  · obtain ⟨i, hi, _, h1, h2, h3, _, h5, _⟩ := fresh_mem tbl now input nextId r2 h
    have hkey : msRowKey r2 = msInputKey i := by
      show msKey r2.name r2.path = msKey i.name i.path
      rw [h1, h2]
    refine ⟨i, ?_, h3, h5⟩
    rw [hkey]
    exact find?_key_self msInputKey input i hin hi

theorem fresh_nil_of_all_matched (ex : List MsRow) (now : Nat) :
    ∀ (input : List MsInput) (n : Nat),
      (∀ i ∈ input, findByKey ex (msInputKey i) ≠ none) →
      freshRows ex now input n = [] := by
  intro input
  induction input with
  | nil => intro n _; rfl
  | cons i is ih =>
    intro n hall
    cases hf : findByKey ex (msInputKey i) with
    | none => exact absurd hf (hall i (by simp))
    | some e =>
      rw [freshRows_cons_some ex now i is n e hf]
      exact ih n (fun j hj => hall j (by simp [hj]))

theorem unmatchedCount_zero_of_all_matched (ex : List MsRow)
    (input : List MsInput)
    (hall : ∀ i ∈ input, findByKey ex (msInputKey i) ≠ none) :
    unmatchedCount ex input = 0 := by
  unfold unmatchedCount
  rw [List.length_eq_zero]
  rw [List.filter_eq_nil_iff]
  intro i hi
  cases hf : findByKey ex (msInputKey i) with
  | none => exact absurd hf (hall i hi)
  | some e => simp

/-- C5: microservice reconciliation is idempotent on a stable input — the
second run leaves the table and the autoincrement counter exactly as the
first run did — and it upserts preserving identity: a record matching an
existing `(name, path)` key updates that row in place (same id, name, path,
creation time; only description and updated-at change), rows whose key is
absent from the input are deleted, unmatched incoming records are inserted
as fresh rows, and the reconciled table carries no duplicate keys. -/
theorem c5_reconcile_idempotent_preserves_identity (tbl : List MsRow)
    (nextId now : Nat) (input : List MsInput) (hok : msTableOK tbl nextId)
    (hin : (input.map msInputKey).Nodup) :
    (upsertServicesPreserveID (upsertServicesPreserveID tbl nextId now input).1
        (upsertServicesPreserveID tbl nextId now input).2 now input =
      upsertServicesPreserveID tbl nextId now input) ∧
    (∀ r ∈ tbl, ∀ i, input.find? (fun x => msInputKey x = msRowKey r) = some i →
      msUpdate i.description now r ∈
        (upsertServicesPreserveID tbl nextId now input).1) ∧
    (∀ r ∈ tbl, input.find? (fun x => msInputKey x = msRowKey r) = none →
      ∀ r2 ∈ (upsertServicesPreserveID tbl nextId now input).1, r2.id ≠ r.id) ∧
    (∀ i ∈ input, findByKey tbl (msInputKey i) = none →
      ∃ r2 ∈ (upsertServicesPreserveID tbl nextId now input).1,
        r2.name = i.name ∧ r2.path = i.path ∧
          r2.description = i.description ∧ nextId ≤ r2.id) ∧
    ((upsertServicesPreserveID tbl nextId now input).1.map msRowKey).Nodup := by
  have hspec1 := upsertServicesPreserveID_spec tbl nextId now input hok hin
  have h1 : (upsertServicesPreserveID tbl nextId now input).1 =
      reconcileSpec tbl nextId now input := by rw [hspec1]
  have h2 : (upsertServicesPreserveID tbl nextId now input).2 =
      nextId + unmatchedCount tbl input := by rw [hspec1]
  have hok1 : msTableOK (reconcileSpec tbl nextId now input)
      (nextId + unmatchedCount tbl input) :=
    reconcile_tableOK tbl nextId now input hok hin
  have hall : ∀ i ∈ input,
      findByKey (reconcileSpec tbl nextId now input) (msInputKey i) ≠ none := by
    intro i hi hnone
    obtain ⟨r, hr, hk⟩ :=
      reconcile_key_complete tbl nextId now input hin i hi
    have := List.find?_eq_none.mp hnone r hr
    simp only [decide_eq_true_eq] at this
    exact this hk
  refine ⟨?_, ?_, ?_, ?_, ?_⟩
  · rw [h1, h2, hspec1]
    rw [upsertServicesPreserveID_spec _ _ now input hok1 hin]
    have huc : unmatchedCount (reconcileSpec tbl nextId now input) input = 0 :=
      unmatchedCount_zero_of_all_matched _ input hall
    have hrec2 : reconcileSpec (reconcileSpec tbl nextId now input)
        (nextId + unmatchedCount tbl input) now input =
        reconcileSpec tbl nextId now input := by
      rw [show reconcileSpec (reconcileSpec tbl nextId now input)
          (nextId + unmatchedCount tbl input) now input =
          updatedOldRows (reconcileSpec tbl nextId now input) now input ++
            freshRows (reconcileSpec tbl nextId now input) now input
              (nextId + unmatchedCount tbl input) from rfl]
      rw [fresh_nil_of_all_matched _ now input _ hall, List.append_nil]
      rw [show updatedOldRows (reconcileSpec tbl nextId now input) now input =
          (reconcileSpec tbl nextId now input).filterMap
            (fun r => (input.find? (fun i => msInputKey i = msRowKey r)).map
              (fun i => msUpdate i.description now r)) from rfl]
      rw [filterMap_eq_map_of _ (fun r => r) _ ?hg]
      case hg =>
        intro r hr
        obtain ⟨i, hfind, hdesc, hupd⟩ :=
          reconcile_mem_char tbl nextId now input hin r hr
        rw [hfind]
        simp only [Option.map_some']
        rw [msUpdate_self i.description now r hdesc hupd]
      exact List.map_id _
    rw [hrec2, huc, Nat.add_zero]
  · intro r hr i hfind
    rw [h1]
    unfold reconcileSpec
    exact List.mem_append.mpr
      (Or.inl (updated_mem_intro tbl now input r i hr hfind))
  · intro r hr hnone r2 hr2
    rw [h1] at hr2
    unfold reconcileSpec at hr2
    rcases List.mem_append.mp hr2 with h | h
    · obtain ⟨r0, hr0, i, hfind0, hre⟩ := updated_mem_of tbl now input r2 h
      intro hid
      rw [hre, msUpdate_id] at hid
      have : r0 = r := msRow_id_inj hok.2.1 hr0 hr hid
      rw [this] at hfind0
      rw [hnone] at hfind0
      cases hfind0
    · have hge := fresh_id_lb tbl now input nextId r2 h
      have hlt := hok.2.2 r hr
      omega
  · intro i hi hf
    rw [h1]
    obtain ⟨r2, hr2, ha, hb, hc, hd⟩ :=
      fresh_intro tbl now input nextId i hi hf
    refine ⟨r2, ?_, ha, hb, hc, hd⟩
    unfold reconcileSpec
    exact List.mem_append.mpr (Or.inr hr2)
  · rw [h1]
    exact reconcile_keys_nodup tbl nextId now input hok.1 hin

theorem c5_reconcile_idempotent_preserves_identity_witness :
    upsertServicesPreserveID
        (upsertServicesPreserveID
          [⟨1, ("svc-a").data, ("services/svc-a").data, ("old").data, 0, 0⟩]
          2 5
          [⟨("svc-a").data, ("services/svc-a").data, ("fresh desc").data⟩,
           ⟨("svc-b").data, ("services/svc-b").data, ("d2").data⟩]).1
        (upsertServicesPreserveID
          [⟨1, ("svc-a").data, ("services/svc-a").data, ("old").data, 0, 0⟩]
          2 5
          [⟨("svc-a").data, ("services/svc-a").data, ("fresh desc").data⟩,
           ⟨("svc-b").data, ("services/svc-b").data, ("d2").data⟩]).2 5
        [⟨("svc-a").data, ("services/svc-a").data, ("fresh desc").data⟩,
         ⟨("svc-b").data, ("services/svc-b").data, ("d2").data⟩] =
      upsertServicesPreserveID
        [⟨1, ("svc-a").data, ("services/svc-a").data, ("old").data, 0, 0⟩]
        2 5
        [⟨("svc-a").data, ("services/svc-a").data, ("fresh desc").data⟩,
         ⟨("svc-b").data, ("services/svc-b").data, ("d2").data⟩] :=
  (c5_reconcile_idempotent_preserves_identity
    [⟨1, ("svc-a").data, ("services/svc-a").data, ("old").data, 0, 0⟩] 2 5
    [⟨("svc-a").data, ("services/svc-a").data, ("fresh desc").data⟩,
     ⟨("svc-b").data, ("services/svc-b").data, ("d2").data⟩]
    (by refine ⟨by decide, by decide, ?_⟩; intro r hr; fin_cases hr; decide)
    (by decide)).1

end DevDashboard
